import Mathlib

/-!
Verification development for a PDF-extraction backend consisting of a gated
external-conversion runner (`marker_runner.py`), a markdown table extraction
engine (`table_extractor.py`), a batching export, and their configuration
(`config.py`) and HTTP caller (`endpoints.py`).

Text is modelled as `List Char`.  Python strings read through
`Path.read_text` are newline-normalized (universal newlines), so the models
treat `'\n'` as the only line terminator.  Machine integers are modelled as
`Int`/`Nat`.  Fallible code returns `Option`/`Except`.
-/

/-- Convert a string literal to the `List Char` representation used throughout. -/
def chars (s : String) : List Char := s.toList

/-- Python's `\s` / `str.strip()` whitespace class, restricted to the ASCII
whitespace characters that can occur in the modelled texts. -/
def isWS (c : Char) : Bool :=
  c = ' ' || c = '\t' || c = '\n' || c = '\r' || c = '\x0b' || c = '\x0c'

/-- Drop trailing whitespace (the suffix of characters satisfying `isWS`). -/
def dropTrailWS (l : List Char) : List Char :=
  (l.reverse.dropWhile isWS).reverse

/-- Model of Python `str.strip()`: drop leading and trailing whitespace. -/
def stripChars (l : List Char) : List Char :=
  dropTrailWS (l.dropWhile isWS)

/-- Model of Python `str.split(sep)` for a one-character separator: always
returns at least one (possibly empty) field. -/
def splitOnChar (sep : Char) : List Char → List (List Char)
  | [] => [[]]
  | c :: cs =>
    let r := splitOnChar sep cs
    if c = sep then [] :: r
    else
      match r with
      | [] => [[c]]
      | l :: ls => (c :: l) :: ls

/-- Split a text into lines, each keeping its `'\n'` terminator when present
(the final line may lack one).  The empty text has no lines, matching Python
`str.splitlines`. -/
def splitKeep : List Char → List (List Char)
  | [] => []
  | c :: cs =>
    let r := splitKeep cs
    if c = '\n' then ['\n'] :: r
    else
      match r with
      | [] => [[c]]
      | l :: ls => (c :: l) :: ls

/-- Model of Python `str.splitlines()` for newline-normalized text: the line
bodies, without terminators, and with no trailing empty line. -/
def splitNl (cs : List Char) : List (List Char) :=
  (splitKeep cs).map (List.takeWhile (· ≠ '\n'))

/-- Join line bodies with `'\n'`, as Python `"\n".join(lines)`. -/
def joinNl (ls : List (List Char)) : List Char :=
  List.intercalate ['\n'] ls

/-- Boolean substring test, modelling Python's `needle in haystack`. -/
def infixCheck (needle hay : List Char) : Bool :=
  hay.tails.any (fun t => needle.isPrefixOf t)

/-! ## Model of `TABLE_REGEX = re.compile(r"(\|.*\|\s*\n)+", re.MULTILINE)`

Python `re` backtracking semantics for this concrete pattern, over
`List Char`.  A single group iteration `\|.*\|\s*\n` starting at a `'|'`
tries the pipes of the current line from the rightmost one; after the chosen
pipe, `\s*\n` greedily consumes the whitespace run and ends at its last
newline.  `finditer` scans left to right and restarts after each match. -/

/-- Positions of `'|'` characters in a list, in increasing order. -/
def pipeIdxs : List Char → List Nat
  | [] => []
  | c :: t =>
    let r := (pipeIdxs t).map (· + 1)
    if c = '|' then 0 :: r else r

/-- Index of the last `'\n'` in a list, if any. -/
def lastIdxNl : List Char → Option Nat
  | [] => none
  | c :: t =>
    match lastIdxNl t with
    | some i => some (i + 1)
    | none => if c = '\n' then some 0 else none

/-- Match `\s*\n` greedily at the head of `cs`: consume the maximal
whitespace run up to (and including) its last newline. -/
def matchSW (cs : List Char) : Option Nat :=
  (lastIdxNl (cs.takeWhile isWS)).map (· + 1)

/-- Backtracking over the candidate pipes (given rightmost-first) for the
`.*\|` part: `rest` is the text after the leading `'|'`, and a candidate `p`
is an index into the current line of `rest`. -/
def tryPipes (rest : List Char) : List Nat → Option Nat
  | [] => none
  | p :: ps =>
    match matchSW (rest.drop (p + 1)) with
    | some k => some (p + 2 + k)
    | none => tryPipes rest ps

/-- Match one group iteration `\|.*\|\s*\n` at the head of `cs`, returning
the number of characters consumed. -/
def matchG (cs : List Char) : Option Nat :=
  match cs with
  | '|' :: rest => tryPipes rest ((pipeIdxs (rest.takeWhile (· ≠ '\n'))).reverse)
  | _ => none

/-- Consume as many further group iterations as possible (the `+` loop);
`fuel` bounds the recursion and is always supplied ≥ the text length. -/
def matchMore : Nat → List Char → Nat
  | 0, _ => 0
  | fuel + 1, cs =>
    match matchG cs with
    | none => 0
    | some n => n + matchMore fuel (cs.drop n)

/-- Length of the full-pattern match `(\|.*\|\s*\n)+` at the head of `cs`,
if any. -/
def matchPlusLen (cs : List Char) : Option Nat :=
  match matchG cs with
  | none => none
  | some n => some (n + matchMore cs.length (cs.drop n))

/-- Left-to-right scan collecting all matches in order, as `finditer`;
`fuel` bounds the scan and is always supplied ≥ the text length. -/
def scanAux : Nat → List Char → List (List Char)
  | 0, _ => []
  | _ + 1, [] => []
  | fuel + 1, c :: cs =>
    match matchPlusLen (c :: cs) with
    | some n => (c :: cs).take n :: scanAux fuel ((c :: cs).drop n)
    | none => scanAux fuel cs

/-- The table blocks of a markdown text:
`[m.group(0) for m in TABLE_REGEX.finditer(content)]`. -/
def tablesMd (content : List Char) : List (List Char) :=
  scanAux content.length content

/-! ## Table blocks as worded by the specification

The spec describes a table block as "any maximal run of consecutive lines
each matching the shape: starts and ends with a pipe character, possibly
with trailing whitespace."  These definitions follow the spec's words, to be
compared with `tablesMd`, which is translated from the source regex. -/

/-- A line (with optional terminator) that starts with a pipe and, after
dropping trailing whitespace, ends with a pipe — the spec's line shape. -/
def specTableLine (l : List Char) : Bool :=
  let b := l.takeWhile (· ≠ '\n')
  let t := dropTrailWS b
  b.head? = some '|' && t.getLast? = some '|'

/-- Group a list of terminator-keeping lines into the concatenations of the
maximal runs of lines satisfying `specTableLine`. -/
def groupJoin : List (List Char) → List (List Char)
  | [] => []
  | [l] => if specTableLine l then [l] else []
  | l :: l' :: ls =>
    match specTableLine l, specTableLine l', groupJoin (l' :: ls) with
    | true, true, b :: bs => (l ++ b) :: bs
    | true, true, [] => [l]
    | true, false, bs => l :: bs
    | false, _, bs => bs

/-- The table blocks of a text according to the specification's wording. -/
def specBlocks (content : List Char) : List (List Char) :=
  groupJoin (splitKeep content)

/-- A strict table line body (no terminator): begins with a pipe, contains a
second pipe, and carries only whitespace after its last pipe. -/
def strictTableLine (b : List Char) : Bool :=
  match b with
  | '|' :: r =>
    match (pipeIdxs r).reverse with
    | [] => false
    | p :: _ => (r.drop (p + 1)).all isWS
  | _ => false

/-- A pipe-free, non-blank line body. -/
def cleanLine (b : List Char) : Bool :=
  !(b.contains '|') && !(b.all isWS)

/-- Assemble line bodies into a newline-terminated text. -/
def encodeLines (ls : List (List Char)) : List Char :=
  (ls.map (· ++ ['\n'])).flatten

/-! ## Model of `extract_tables_as_dataframes` (table_extractor.py)

`SEPARATOR_LINE_REGEX = re.compile(r'^\s*\|?\s*:?-{3,}', re.IGNORECASE)`;
for this pattern the greedy left-to-right reading is exact. -/

/-- A separator line such as `|----|----|`: optional whitespace, optional
pipe, optional whitespace, optional colon, then three or more dashes. -/
def sepLine (l : List Char) : Bool :=
  let a := l.dropWhile isWS
  let b := match a with
    | '|' :: t => t
    | _ => a
  let c := b.dropWhile isWS
  let d := match c with
    | ':' :: t => t
    | _ => c
  d.take 3 = ['-', '-', '-']

/-- The lines of a table block that survive separator-line removal:
`[line for line in table_md.splitlines() if not SEPARATOR_LINE_REGEX.match(line)]`. -/
def remainingLines (tableMd : List Char) : List (List Char) :=
  (splitNl tableMd).filter (fun l => !(sepLine l))

/-- The cells of the first remaining line, split on the pipe delimiter and
trimmed: `[cell.strip() for cell in lines[0].split("|")]`. -/
def firstRowCells (tableMd : List Char) : List (List Char) :=
  (splitOnChar '|' ((remainingLines tableMd).headD [])).map stripChars

/-- The header row index passed to the CSV parse: `1` when at least half of
the first remaining line's trimmed cells are empty and more than one line
remains, else `0`. -/
def headerIdx (tableMd : List Char) : Nat :=
  let lines := remainingLines tableMd
  let firstRow := firstRowCells tableMd
  if 2 * firstRow.count [] ≥ firstRow.length ∧ 1 < lines.length then 1 else 0

/-- A parsed table: named columns and rows of optional (missing = NaN)
string cells. -/
structure Frame where
  header : List (List Char)
  rows : List (List (Option (List Char)))
deriving DecidableEq

/-- An empty CSV field is a missing value (NaN). -/
def toCell (f : List Char) : Option (List Char) :=
  if f = [] then none else some f

/-- Model of `pd.read_csv(StringIO(t), sep="|", engine="python", header=h)`
for the pipe-separated texts produced here: blank lines are skipped, row `h`
of the remainder names the columns, later rows are data, a data row with
more fields than the header is a parse error, shorter rows are NaN-padded,
and empty fields are NaN.  (Quoting and numeric dtype inference are not
exercised by the properties proved below and are not modelled.) -/
def pdReadCsvModel (t : List Char) (header : Nat) : Option Frame :=
  let ls := (splitNl t).filter (· ≠ [])
  let rows := ls.map (splitOnChar '|')
  match rows.drop header with
  | [] => none
  | hdr :: dataRows =>
    if dataRows.all (fun r => r.length ≤ hdr.length) then
      some ⟨hdr, dataRows.map (fun r =>
        r.map toCell ++ List.replicate (hdr.length - r.length) none)⟩
    else none

/-- Model of `df.dropna(axis=1, how="all")`: drop the columns whose cells
are missing in every data row. -/
def dropAllNaCols (f : Frame) : Frame :=
  let keep : Nat → Bool := fun j => f.rows.any (fun r => (r.getD j none).isSome)
  ⟨((f.header.enum).filter (fun x => keep x.1)).map Prod.snd,
   f.rows.map (fun r => ((r.enum).filter (fun x => keep x.1)).map Prod.snd)⟩

/-- Model of the column-name trim and the cell trim (`df.columns.str.strip()`
and the `applymap`). -/
def stripFrame (f : Frame) : Frame :=
  ⟨f.header.map stripChars, f.rows.map (fun r => r.map (Option.map stripChars))⟩

/-- Per-block processing of `extract_tables_as_dataframes`: separator-line
removal, the header-row heuristic, join/strip, the CSV parse, and the
post-processing; `none` when the block yields no table (the `continue`
branches, including the caught parse failure). -/
def processBlock (tableMd : List Char) : Option Frame :=
  let lines := remainingLines tableMd
  if lines.isEmpty then none
  else
    let cleaned := stripChars (joinNl lines)
    match pdReadCsvModel cleaned (headerIdx tableMd) with
    | none => none
    | some f => some (stripFrame (dropAllNaCols f))

/-- The `for table_md in tables_md` loop: parsed tables are appended in
order, failed blocks are skipped and the loop continues. -/
def extractGo : List (List Char) → List Frame
  | [] => []
  | b :: bs =>
    match processBlock b with
    | some f => f :: extractGo bs
    | none => extractGo bs

/-- Model of `extract_tables_as_dataframes(md_file_path)`: the file argument
is its content when the file exists; a missing file raises
`FileNotFoundError`, and an existing file always yields a (possibly empty)
list of parsed tables. -/
def extract_tables_as_dataframes (file : Option (List Char)) :
    Except (List Char) (List Frame) :=
  match file with
  | none => Except.error (chars "Markdown file not found")
  | some content => Except.ok (extractGo (tablesMd content))

/-! ## Batching export

`endpoints.filter_tables` invokes the batching export with
`sheets_per_file=30`; `save_tables_as_csv` in `table_extractor.py`
implements only the legacy one-record-per-file mode. -/

/-- Contiguous chunks of at most `n` records, in order; `fuel` bounds the
recursion and is always supplied ≥ the list length (valid for `0 < n`). -/
def chunkGo (n : Nat) : Nat → List α → List (List α)
  | 0, _ => []
  | _ + 1, [] => []
  | fuel + 1, l => l.take n :: chunkGo n fuel (l.drop n)

/-- Partition `records` into contiguous batches of at most `batchSize`. -/
def chunkRecords (batchSize : Nat) (records : List α) : List (List α) :=
  chunkGo batchSize records.length records

/-- Modelled from the spec: the batching export invoked by
`endpoints.filter_tables` (`sheets_per_file` Excel batching) is not present
under `src/` — only its caller is; `table_extractor.save_tables_as_csv`
implements the one-record-per-file mode.  Per the spec, export partitions
the records into contiguous batches of at most `batchSize`, preserving
order, and writes each batch as one artifact named by a 1-based sequential
index. -/
def exportBatches (records : List α) (batchSize : Nat) : List (Nat × List α) :=
  List.enumFrom 1 (chunkRecords batchSize records)

/-- Decimal digits of a natural number, for building message strings. -/
def natChars (n : Nat) : List Char := Nat.toDigits 10 n

/-- Model of `save_tables_as_csv`: one artifact per record, named
`table_<idx>.csv` with a 1-based sequential index, in order.  (Only the
produced names are modelled; the writes are the artifacts themselves.) -/
def save_tables_as_csv (dfs : List Frame) : List (List Char) :=
  (List.enumFrom 1 dfs).map (fun x => chars "table_" ++ natChars x.1 ++ chars ".csv")

/-! ## Model of `run_marker_for_chunk` (marker_runner.py) -/

/-- The external-tool invocation:
`[MARKER_CLI, str(chunk_path), "--output_dir", str(output_dir)] +
[flag for flag in MARKER_FLAGS if "--output_dir" not in flag]`. -/
def markerCmd (cli chunk outDir : List Char) (flags : List (List Char)) :
    List (List Char) :=
  [cli, chunk, chars "--output_dir", outDir] ++
    flags.filter (fun flag => !(infixCheck (chars "--output_dir") flag))

/-- Captured result of the external conversion process. -/
structure ProcResult where
  returncode : Int
  stdout : List Char
  stderr : List Char

/-- `f"Marker failed for {chunk_path}: {res.stderr}"`. -/
def markerFailMsg (chunk err : List Char) : List Char :=
  chars "Marker failed for " ++ chunk ++ chars ": " ++ err

/-- `f"Expected markdown output not found after Marker run for {chunk_path}"`. -/
def notFoundMsg (chunk : List Char) : List Char :=
  chars "Expected markdown output not found after Marker run for " ++ chunk

/-- Metadata of one filesystem entry: last-modified time and kind. -/
structure FileInfo where
  mtime : Nat
  isDir : Bool

/-- A filesystem snapshot: an association list from paths to metadata. -/
def Fs : Type := List (List Char × FileInfo)

/-- Look up a path in the snapshot. -/
def fsLookup (fs : Fs) (p : List Char) : Option FileInfo :=
  (List.find? (fun e => e.1 = p) fs).map (·.2)

/-- `path.exists()`. -/
def fexists (fs : Fs) (p : List Char) : Bool :=
  (fsLookup fs p).isSome

/-- The sort key `p.stat().st_mtime if p.exists() else 0`. -/
def mtimeKey (fs : Fs) (p : List Char) : Nat :=
  match fsLookup fs p with
  | some i => i.mtime
  | none => 0

/-- Deduplication via the insertion-ordered dict keyed by resolved path
(resolution modelled as the identity): keep the first occurrence of each
path; `fuel` bounds the recursion and is always supplied ≥ the list
length. -/
def dedupGo : Nat → List (List Char) → List (List Char)
  | 0, _ => []
  | _ + 1, [] => []
  | fuel + 1, x :: xs => x :: dedupGo fuel (xs.filter (· ≠ x))

/-- Keep the first occurrence of each candidate path. -/
def dedupFirst (l : List (List Char)) : List (List Char) :=
  dedupGo l.length l

/-- Insert into a list sorted by `key`, descending (stable: an element goes
before the first entry whose key is not larger). -/
def insertDesc (key : List Char → Nat) (x : List Char) :
    List (List Char) → List (List Char)
  | [] => [x]
  | y :: ys => if key y ≤ key x then x :: y :: ys else y :: insertDesc key x ys

/-- Sort by `key`, descending (model of
`candidates.sort(key=..., reverse=True)`). -/
def sortDesc (key : List Char → Nat) : List (List Char) → List (List Char)
  | [] => []
  | x :: xs => insertDesc key x (sortDesc key xs)

/-- Discovery selection: deduplicate the candidates, rank by last-modified
time descending, and take the head (`chosen = candidates[0]`). -/
def discoverySelect (fs : Fs) (cands : List (List Char)) : Option (List Char) :=
  (sortDesc (mtimeKey fs) (dedupFirst cands)).head?

/-- `p.is_dir()`. -/
def isDirF (fs : Fs) (p : List Char) : Bool :=
  match fsLookup fs p with
  | some i => i.isDir
  | none => false

/-- `p.is_file()`. -/
def isFileF (fs : Fs) (p : List Char) : Bool :=
  match fsLookup fs p with
  | some i => !i.isDir
  | none => false

/-- `p.suffix == ".md"` (for the name-shaped paths that occur here). -/
def endsWithMd (p : List Char) : Bool :=
  (chars ".md").isSuffixOf p

/-- `chosen.glob("*.md")` taking the first result: the first immediate child
of `d` in the snapshot that ends in `.md`. -/
def childMd (fs : Fs) (d : List Char) : Option (List Char) :=
  (List.find? (fun p => (d ++ ['/']).isPrefixOf p && endsWithMd p &&
    !((p.drop (d.length + 1)).contains '/')) (fs.map Prod.fst))

/-- The checks applied to the chosen discovery candidate: descend one level
into a directory to its first `.md` child; succeed only on a `.md` regular
file, else fail with the not-found error. -/
def finalize (fs : Fs) (chunk chosen : List Char) : Except (List Char) (List Char) :=
  let chosen2 := if isDirF fs chosen then
    match childMd fs chosen with
    | some m => m
    | none => chosen
  else chosen
  if isFileF fs chosen2 && endsWithMd chosen2 then Except.ok chosen2
  else Except.error (notFoundMsg chunk)

/-- The runner's behaviour after the child process exits: a non-zero exit
raises `MarkerError` with the captured stderr; otherwise the canonical path
is returned when present, else discovery runs over the candidate set. -/
def postRun (chunk canonical : List Char) (proc : ProcResult) (fs : Fs)
    (cands : List (List Char)) : Except (List Char) (List Char) :=
  if proc.returncode ≠ 0 then Except.error (markerFailMsg chunk proc.stderr)
  else if fexists fs canonical then Except.ok canonical
  else
    match discoverySelect fs cands with
    | some chosen => finalize fs chunk chosen
    | none => Except.error (notFoundMsg chunk)

/-! ## Model of the GPU gate (`_gpu_state_ok`, `wait_for_gpu_ready`) -/

/-- One telemetry sample: `(index, temp_c, mem_total_mb, mem_used_mb)`. -/
structure GpuSample where
  index : Int
  temp : Int
  memTotal : Int
  memUsed : Int

/-- The per-device loop of `_gpu_state_ok`: `False` on the first device at
or above the temperature threshold or with too little free memory. -/
def gpuStateOkGo (tempThresh memFree : Int) : List GpuSample → Bool
  | [] => true
  | g :: rest =>
    if g.temp ≥ tempThresh then false
    else if g.memTotal - g.memUsed < memFree then false
    else gpuStateOkGo tempThresh memFree rest

/-- `_gpu_state_ok()`: `True` when the telemetry query yields no devices
(tool unavailable, failing, or no GPUs), else the per-device loop. -/
def gpu_state_ok (tempThresh memFree : Int) (gpus : List GpuSample) : Bool :=
  if gpus.isEmpty then true else gpuStateOkGo tempThresh memFree gpus

/-- `f"Timeout waiting for GPU to become available after {timeout}s"`. -/
def timeoutMsg (timeout : Nat) : List Char :=
  chars "Timeout waiting for GPU to become available after " ++
    natChars timeout ++ ['s']

/-- Outcome of the gate in the discrete-time model: ready, a raised timeout
error carrying the message and the model's elapsed time at the raise, or
still polling when the model's fuel is exhausted. -/
inductive GateResult where
  | ready : GateResult
  | timeoutErr : List Char → Nat → GateResult
  | runningBeyondFuel : GateResult
deriving DecidableEq

/-- The `while True` loop of `wait_for_gpu_ready`: `ok k` is the readiness
verdict of the `k`-th telemetry check, `e` the time elapsed since the first
check; each `time.sleep(poll)` advances time by `poll`. -/
def waitGo (ok : Nat → Bool) (timeout poll : Nat) :
    Nat → Nat → Nat → GateResult
  | 0, _, _ => GateResult.runningBeyondFuel
  | fuel + 1, k, e =>
    if ok k then GateResult.ready
    else if e > timeout then GateResult.timeoutErr (timeoutMsg timeout) e
    else waitGo ok timeout poll fuel (k + 1) (e + poll)

/-- `wait_for_gpu_ready(timeout, poll)`: a quick check, then the poll loop. -/
def wait_for_gpu_ready (ok : Nat → Bool) (timeout poll fuel : Nat) : GateResult :=
  if ok 0 then GateResult.ready else waitGo ok timeout poll fuel 1 0

/-- `Path(chunk_path).stem`: the final path component without its last
suffix. -/
def pathStem (p : List Char) : List Char :=
  let base := (p.reverse.takeWhile (· ≠ '/')).reverse
  let ext := base.reverse.takeWhile (· ≠ '.')
  if ext.length + 1 ≤ base.length then base.take (base.length - (ext.length + 1))
  else base

/-- Model of `run_marker_for_chunk`: the gate runs first; only when it
reports ready is the command built and the child process run (`proc` is its
captured result), followed by output resolution.  The second component
records whether the conversion job was launched. -/
def run_marker_for_chunk (ok : Nat → Bool) (timeout poll fuel : Nat)
    (cli chunk outDir : List Char) (flags : List (List Char))
    (proc : ProcResult) (fs : Fs) (cands : List (List Char)) :
    Except (List Char) (List Char) × Bool :=
  match wait_for_gpu_ready ok timeout poll fuel with
  | GateResult.timeoutErr msg _ => (Except.error msg, false)
  | GateResult.runningBeyondFuel => (Except.error (chars "gate still polling"), false)
  | GateResult.ready =>
    let canonical := outDir ++ '/' :: pathStem chunk ++ chars ".md"
    let _cmd := markerCmd cli chunk outDir flags
    (postRun chunk canonical proc fs cands, true)

/-! ## Lemmas and claim theorems -/

theorem gpuStateOkGo_eq_all (th mf : Int) (gpus : List GpuSample) :
    gpuStateOkGo th mf gpus = true ↔
      ∀ g ∈ gpus, g.temp < th ∧ mf ≤ g.memTotal - g.memUsed := by
  induction gpus with
  | nil => simp [gpuStateOkGo]
  | cons g rest ih =>
    by_cases h1 : g.temp ≥ th
    · simp only [gpuStateOkGo, if_pos h1]
      constructor
      · intro h
        exact absurd h (by simp)
      · intro h
        exact absurd (h g (List.mem_cons_self _ _)).1 (not_lt.mpr h1)
    · by_cases h2 : g.memTotal - g.memUsed < mf
      · simp only [gpuStateOkGo, if_neg h1, if_pos h2]
        constructor
        · intro h
          exact absurd h (by simp)
        · intro h
          exact absurd (h g (List.mem_cons_self _ _)).2 (not_le.mpr h2)
      · simp only [gpuStateOkGo, if_neg h1, if_neg h2, ih, List.mem_cons]
        constructor
        · intro h x hx
          rcases hx with hx | hx
          · exact hx ▸ ⟨not_le.mp h1, not_lt.mp h2⟩
          · exact h x hx
        · intro h x hx
          exact h x (Or.inr hx)

/-- C6: the GPU readiness verdict is true when the telemetry query yields no
devices (tool unavailable or no GPUs), and otherwise is true exactly when
every sampled device is strictly below the temperature threshold and has at
least the minimum free memory; one violating device makes it false. -/
theorem c6_gpu_readiness_verdict (th mf : Int) (gpus : List GpuSample) :
    gpu_state_ok th mf [] = true ∧
      (gpu_state_ok th mf gpus = true ↔
        ∀ g ∈ gpus, g.temp < th ∧ mf ≤ g.memTotal - g.memUsed) := by
  constructor
  · rfl
  · cases gpus with
    | nil => simp [gpu_state_ok]
    | cons g rest =>
      have hok : gpu_state_ok th mf (g :: rest) = gpuStateOkGo th mf (g :: rest) := by
        simp [gpu_state_ok]
      rw [hok]
      exact gpuStateOkGo_eq_all th mf (g :: rest)

/-- C2 counterexample: with caller flags `["--output_dir", "/data/old_out"]`,
the built command still contains the caller's directory value token
`"/data/old_out"`; the claim that both the flag and its directory value are
absent from the command is false. -/
theorem c2_counterexample :
    markerCmd (chars "marker_single") (chars "doc.pdf") (chars "/srv/out")
        [chars "--output_dir", chars "/data/old_out"] =
      [chars "marker_single", chars "doc.pdf", chars "--output_dir",
        chars "/srv/out", chars "/data/old_out"] ∧
    chars "/data/old_out" ∈
      markerCmd (chars "marker_single") (chars "doc.pdf") (chars "/srv/out")
        [chars "--output_dir", chars "/data/old_out"] := by
  constructor
  · decide
  · decide

/-- C2 amended: the built command starts with the tool, the input path, and
`--output_dir` followed by the runner's output directory; every caller
token containing the substring `--output_dir` is dropped from the command
tail, and every other caller token — including a directory value supplied
as its own token — is retained. -/
theorem c2_output_dir_flag_stripped (cli chunk outDir : List Char)
    (flags : List (List Char)) :
    (markerCmd cli chunk outDir flags).take 4 =
        [cli, chunk, chars "--output_dir", outDir] ∧
      (∀ f ∈ flags, infixCheck (chars "--output_dir") f = true →
        f ∉ (markerCmd cli chunk outDir flags).drop 4) ∧
      (∀ f ∈ flags, infixCheck (chars "--output_dir") f = false →
        f ∈ (markerCmd cli chunk outDir flags).drop 4) := by
  refine ⟨?_, ?_, ?_⟩
  · simp [markerCmd]
  · intro f hf hinf hmem
    simp only [markerCmd, List.cons_append, List.nil_append, List.drop_succ_cons,
      List.drop_zero, List.mem_filter] at hmem
    rw [hinf] at hmem
    simp at hmem
  · intro f hf hinf
    simp only [markerCmd, List.cons_append, List.nil_append, List.drop_succ_cons,
      List.drop_zero, List.mem_filter]
    exact ⟨hf, by simp [hinf]⟩

/-- C4: whenever the child process exits non-zero, the runner raises
`MarkerError` whose message contains the captured stderr verbatim (as a
suffix), and no output resolution is attempted: neither the filesystem
state nor the candidate set can affect the outcome. -/
theorem c4_nonzero_exit_raises (chunk canonical : List Char)
    (proc : ProcResult) (fs : Fs) (cands : List (List Char))
    (h : proc.returncode ≠ 0) :
    postRun chunk canonical proc fs cands =
        Except.error (markerFailMsg chunk proc.stderr) ∧
      proc.stderr <:+ markerFailMsg chunk proc.stderr ∧
      ∀ (fs' : Fs) (cands' : List (List Char)),
        postRun chunk canonical proc fs' cands' =
          postRun chunk canonical proc fs cands := by
  refine ⟨?_, ?_, ?_⟩
  · simp [postRun, if_pos h]
  · exact List.suffix_append _ _
  · intro fs' cands'
    simp [postRun, if_pos h]

/-- C4 witness: a concrete failing process. -/
theorem c4_nonzero_exit_raises_witness :
    (1 : Int) ≠ 0 ∧
      postRun (chars "a.pdf") (chars "/o/a.md") ⟨1, [], chars "boom"⟩ [] [] =
          Except.error (markerFailMsg (chars "a.pdf") (chars "boom")) ∧
        chars "boom" <:+ markerFailMsg (chars "a.pdf") (chars "boom") ∧
        ∀ (fs' : Fs) (cands' : List (List Char)),
          postRun (chars "a.pdf") (chars "/o/a.md") ⟨1, [], chars "boom"⟩ fs' cands' =
            postRun (chars "a.pdf") (chars "/o/a.md") ⟨1, [], chars "boom"⟩ [] [] :=
  ⟨by decide, c4_nonzero_exit_raises (chars "a.pdf") (chars "/o/a.md")
    ⟨1, [], chars "boom"⟩ [] [] (by decide)⟩

theorem chunkGo_flatten {α : Type} (n : Nat) (hn : 0 < n) :
    ∀ (fuel : Nat) (l : List α), l.length ≤ fuel → (chunkGo n fuel l).flatten = l := by
  intro fuel
  induction fuel with
  | zero =>
    intro l hl
    rw [List.length_eq_zero.mp (Nat.le_zero.mp hl)]
    rfl
  | succ f ih =>
    intro l hl
    cases l with
    | nil => rfl
    | cons a t =>
      simp only [chunkGo, List.flatten_cons]
      rw [ih ((a :: t).drop n) ?_, List.take_append_drop]
      simp only [List.length_drop, List.length_cons]
      exact Nat.le_trans (Nat.sub_le_sub_right hl n)
        (Nat.le_trans (Nat.sub_le_sub_left hn (f + 1)) (Nat.le_refl _))

theorem chunkGo_batch_le {α : Type} (n : Nat) :
    ∀ (fuel : Nat) (l : List α), ∀ b ∈ chunkGo n fuel l, b.length ≤ n := by
  intro fuel
  induction fuel with
  | zero =>
    intro l b hb
    exact absurd hb (by simp [chunkGo])
  | succ f ih =>
    intro l b hb
    cases l with
    | nil => exact absurd hb (by simp [chunkGo])
    | cons a t =>
      simp only [chunkGo, List.mem_cons] at hb
      rcases hb with hb | hb
      · rw [hb, List.length_take]
        exact Nat.min_le_left _ _
      · exact ih _ b hb

/-- C1: modelled from the spec (the batching export called by
`filter_tables` is absent from `src/`): export partitions the records into
contiguous batches of at most `batchSize` records, preserving extraction
order (the batches concatenate back to the input), each batch becoming one
artifact named by a 1-based sequential index; in particular 65 records with
batch size 30 yield exactly 3 batches of sizes `[30, 30, 5]` in original
order, and the legacy `save_tables_as_csv` mode emits one artifact per
record. -/
theorem c1_batching_export {α : Type} (records : List α) (batchSize : Nat)
    (h : 0 < batchSize) :
    (chunkRecords batchSize records).flatten = records ∧
      (∀ b ∈ chunkRecords batchSize records, b.length ≤ batchSize) ∧
      (exportBatches records batchSize).map Prod.fst =
        List.range' 1 (chunkRecords batchSize records).length ∧
      (chunkRecords 30 (List.range 65)).map List.length = [30, 30, 5] ∧
      (chunkRecords 30 (List.range 65)).flatten = List.range 65 ∧
      ∀ dfs : List Frame, (save_tables_as_csv dfs).length = dfs.length := by
  refine ⟨?_, ?_, ?_, ?_, ?_, ?_⟩
  · exact chunkGo_flatten batchSize h records.length records (Nat.le_refl _)
  · exact chunkGo_batch_le batchSize records.length records
  · simp only [exportBatches]
    exact List.enumFrom_map_fst 1 (chunkRecords batchSize records)
  · decide
  · decide
  · intro dfs
    simp [save_tables_as_csv]

/-- C1 witness: batch size 2 over three records. -/
theorem c1_batching_export_witness :
    0 < 2 ∧
      ((chunkRecords 2 [10, 20, 30]).flatten = [10, 20, 30] ∧
        (∀ b ∈ chunkRecords 2 [10, 20, 30], b.length ≤ 2) ∧
        (exportBatches [10, 20, 30] 2).map Prod.fst =
          List.range' 1 (chunkRecords 2 [10, 20, 30]).length ∧
        (chunkRecords 30 (List.range 65)).map List.length = [30, 30, 5] ∧
        (chunkRecords 30 (List.range 65)).flatten = List.range 65 ∧
        ∀ dfs : List Frame, (save_tables_as_csv dfs).length = dfs.length) :=
  ⟨by decide, c1_batching_export [10, 20, 30] 2 (by decide)⟩

theorem dedupGo_mem (y : List Char) :
    ∀ (fuel : Nat) (l : List (List Char)), l.length ≤ fuel →
      (y ∈ dedupGo fuel l ↔ y ∈ l) := by
  intro fuel
  induction fuel with
  | zero =>
    intro l hl
    rw [List.length_eq_zero.mp (Nat.le_zero.mp hl)]
    simp [dedupGo]
  | succ f ih =>
    intro l hl
    cases l with
    | nil => simp [dedupGo]
    | cons x xs =>
      have hlen : (xs.filter (· ≠ x)).length ≤ f :=
        Nat.le_trans (List.length_filter_le _ _) (Nat.le_of_succ_le_succ hl)
      simp only [dedupGo, List.mem_cons, ih _ hlen, List.mem_filter]
      by_cases hyx : y = x
      · simp [hyx]
      · simp [hyx]

theorem dedupFirst_mem (y : List Char) (l : List (List Char)) :
    y ∈ dedupFirst l ↔ y ∈ l :=
  dedupGo_mem y l.length l (Nat.le_refl _)

theorem insertDesc_mem (key : List Char → Nat) (x y : List Char)
    (l : List (List Char)) : y ∈ insertDesc key x l ↔ y = x ∨ y ∈ l := by
  induction l with
  | nil => simp [insertDesc]
  | cons z zs ih =>
    simp only [insertDesc]
    by_cases h : key z ≤ key x
    · simp [if_pos h]
    · simp only [if_neg h, List.mem_cons, ih]
      tauto

theorem sortDesc_mem (key : List Char → Nat) (y : List Char)
    (l : List (List Char)) : y ∈ sortDesc key l ↔ y ∈ l := by
  induction l with
  | nil => simp [sortDesc]
  | cons x xs ih => simp [sortDesc, insertDesc_mem, ih]

theorem sortDesc_head_max (key : List Char → Nat) :
    ∀ (l : List (List Char)) (c : List Char) (t : List (List Char)),
      sortDesc key l = c :: t → ∀ x ∈ l, key x ≤ key c := by
  intro l
  induction l with
  | nil =>
    intro c t h
    simp [sortDesc] at h
  | cons a xs ih =>
    intro c t h x hx
    cases hs : sortDesc key xs with
    | nil =>
      simp only [sortDesc, hs, insertDesc] at h
      obtain ⟨hc, -⟩ := List.cons.injEq .. ▸ (by exact h : [a] = c :: t)
      rcases List.mem_cons.mp hx with hx | hx
      · rw [hx, ← hc]
      · exfalso
        have hmem := (sortDesc_mem key x xs).mpr hx
        rw [hs] at hmem
        cases hmem
    | cons c' t' =>
      simp only [sortDesc, hs, insertDesc] at h
      by_cases hk : key c' ≤ key a
      · rw [if_pos hk] at h
        obtain ⟨h1, -⟩ := List.cons.injEq .. ▸ h
        rcases List.mem_cons.mp hx with hx | hx
        · rw [hx, ← h1]
        · exact le_trans (le_trans (ih c' t' hs x hx) hk) (le_of_eq (by rw [h1]))
      · rw [if_neg hk] at h
        obtain ⟨h1, -⟩ := List.cons.injEq .. ▸ h
        rcases List.mem_cons.mp hx with hx | hx
        · rw [hx, ← h1]
          exact le_of_lt (lt_of_not_le hk)
        · rw [← h1]
          exact ih c' t' hs x hx

/-- C5: when the canonical output path is absent (and the process exited
zero), the discovery resolver selects a candidate with maximal last-modified
time — with at least two candidates of distinct modification times this is
the most recently modified one — and the runner proceeds with the selected
candidate. -/
theorem c5_discovery_selects_newest (fs : Fs) (chunk canonical : List Char)
    (proc : ProcResult) (cands : List (List Char)) (p q : List Char)
    (h0 : proc.returncode = 0) (h1 : fexists fs canonical = false)
    (hp : p ∈ cands) (hq : q ∈ cands)
    (hne : mtimeKey fs p ≠ mtimeKey fs q) :
    ∃ c, discoverySelect fs cands = some c ∧ c ∈ cands ∧
      (∀ r ∈ cands, mtimeKey fs r ≤ mtimeKey fs c) ∧
      postRun chunk canonical proc fs cands = finalize fs chunk c := by
  have hmem : p ∈ sortDesc (mtimeKey fs) (dedupFirst cands) :=
    (sortDesc_mem _ _ _).mpr ((dedupFirst_mem _ _).mpr hp)
  cases hsort : sortDesc (mtimeKey fs) (dedupFirst cands) with
  | nil =>
    rw [hsort] at hmem
    cases hmem
  | cons c t =>
    refine ⟨c, ?_, ?_, ?_, ?_⟩
    · simp [discoverySelect, hsort]
    · exact (dedupFirst_mem _ _).mp ((sortDesc_mem _ _ _).mp (hsort ▸ List.mem_cons_self c t))
    · intro r hr
      exact sortDesc_head_max (mtimeKey fs) (dedupFirst cands) c t hsort r
        ((dedupFirst_mem _ _).mpr hr)
    · have hrc : ¬ proc.returncode ≠ 0 := by simp [h0]
      simp [postRun, if_neg hrc, h1, discoverySelect, hsort]

/-- C5 witness: two candidates with modification times 5 and 9; the newer
one is selected. -/
theorem c5_discovery_selects_newest_witness :
    ((0 : Int) = 0 ∧
      fexists [(chars "a.md", ⟨5, false⟩), (chars "b.md", ⟨9, false⟩)] (chars "c.md") = false ∧
      chars "a.md" ∈ [chars "a.md", chars "b.md"] ∧
      chars "b.md" ∈ [chars "a.md", chars "b.md"] ∧
      mtimeKey [(chars "a.md", ⟨5, false⟩), (chars "b.md", ⟨9, false⟩)] (chars "a.md") ≠
        mtimeKey [(chars "a.md", ⟨5, false⟩), (chars "b.md", ⟨9, false⟩)] (chars "b.md")) ∧
    ∃ c, discoverySelect [(chars "a.md", ⟨5, false⟩), (chars "b.md", ⟨9, false⟩)]
          [chars "a.md", chars "b.md"] = some c ∧
        c ∈ [chars "a.md", chars "b.md"] ∧
        (∀ r ∈ [chars "a.md", chars "b.md"],
          mtimeKey [(chars "a.md", ⟨5, false⟩), (chars "b.md", ⟨9, false⟩)] r ≤
            mtimeKey [(chars "a.md", ⟨5, false⟩), (chars "b.md", ⟨9, false⟩)] c) ∧
        postRun (chars "x.pdf") (chars "c.md") ⟨0, [], []⟩
            [(chars "a.md", ⟨5, false⟩), (chars "b.md", ⟨9, false⟩)]
            [chars "a.md", chars "b.md"] =
          finalize [(chars "a.md", ⟨5, false⟩), (chars "b.md", ⟨9, false⟩)]
            (chars "x.pdf") c :=
  ⟨⟨by decide, by decide, by decide, by decide, by decide⟩,
    c5_discovery_selects_newest _ (chars "x.pdf") (chars "c.md") ⟨0, [], []⟩ _
      (chars "a.md") (chars "b.md") (by decide) (by decide) (by decide) (by decide)
      (by decide)⟩

deriving instance DecidableEq for Except

theorem infixCheck_iff (n h : List Char) : infixCheck n h = true ↔ n <:+: h := by
  simp only [infixCheck, List.any_eq_true, List.mem_tails, List.isPrefixOf_iff_prefix]
  rw [List.infix_iff_prefix_suffix]
  constructor
  · rintro ⟨t, h1, h2⟩
    exact ⟨t, h2, h1⟩
  · rintro ⟨t, h1, h2⟩
    exact ⟨t, h2, h1⟩

theorem waitGo_never_ready (ok : Nat → Bool) (timeout poll : Nat)
    (hok : ∀ k, ok k = false) (hp : 0 < poll) :
    ∀ (fuel k e : Nat), (timeout - e) / poll + 2 ≤ fuel →
      ∃ e2, waitGo ok timeout poll fuel k e =
          GateResult.timeoutErr (timeoutMsg timeout) e2 ∧ e ≤ e2 ∧ timeout < e2 := by
  intro fuel
  induction fuel with
  | zero =>
    intro k e h
    exfalso
    generalize (timeout - e) / poll = A at h
    omega
  | succ f ih =>
    intro k e h
    have hstep : waitGo ok timeout poll (f + 1) k e =
        if e > timeout then GateResult.timeoutErr (timeoutMsg timeout) e
        else waitGo ok timeout poll f (k + 1) (e + poll) := by
      simp [waitGo, hok k]
    by_cases he : timeout < e
    · exact ⟨e, by rw [hstep, if_pos he], Nat.le_refl e, he⟩
    · rw [hstep, if_neg he]
      by_cases he2 : timeout < e + poll
      · have hf : 1 ≤ f := by
          generalize (timeout - e) / poll = A at h
          omega
        obtain ⟨f', rfl⟩ : ∃ f', f = f' + 1 := ⟨f - 1, by omega⟩
        refine ⟨e + poll, ?_, Nat.le_add_right _ _, he2⟩
        simp [waitGo, hok (k + 1), if_pos he2]
      · have hbound : (timeout - (e + poll)) / poll + 2 ≤ f := by
          have hple : poll ≤ timeout - e := by omega
          have hdiv := Nat.div_eq_sub_div hp hple
          have hsub : timeout - e - poll = timeout - (e + poll) := by omega
          rw [hsub] at hdiv
          generalize hA : (timeout - e) / poll = A at h hdiv
          generalize hB : (timeout - (e + poll)) / poll = B at hdiv ⊢
          omega
        obtain ⟨e2, heq, hle, hgt⟩ := ih (k + 1) (e + poll) hbound
        exact ⟨e2, heq, by omega, hgt⟩

/-- C7 counterexample: with `timeout = 3`, `poll = 2` and a never-ready
verdict, the gate raises when the model's elapsed time is `4`, but the
error message is `"... after 3s"`: it carries the configured timeout, and
the elapsed duration `4` appears nowhere in it; the claim that the error
carries the elapsed duration is false. -/
theorem c7_counterexample :
    wait_for_gpu_ready (fun _ => false) 3 2 10 =
        GateResult.timeoutErr (timeoutMsg 3) 4 ∧
      infixCheck (natChars 4) (timeoutMsg 3) = false ∧
      run_marker_for_chunk (fun _ => false) 3 2 10 (chars "m") (chars "a.pdf")
          (chars "/o") [] ⟨0, [], []⟩ [] [] =
        (Except.error (timeoutMsg 3), false) := by
  refine ⟨by decide, by decide, by decide⟩

/-- C7 amended: if the readiness verdict never becomes true, the gate polls
at the configured interval and, at the first check whose elapsed time
exceeds the timeout, fails with a `MarkerError` whose message carries the
configured timeout value; the error is fatal and the conversion job is
never launched. -/
theorem c7_gate_timeout_fatal (ok : Nat → Bool) (timeout poll fuel : Nat)
    (cli chunk outDir : List Char) (flags : List (List Char))
    (proc : ProcResult) (fs : Fs) (cands : List (List Char))
    (hok : ∀ k, ok k = false) (hp : 0 < poll)
    (hf : timeout / poll + 2 ≤ fuel) :
    ∃ e, wait_for_gpu_ready ok timeout poll fuel =
        GateResult.timeoutErr (timeoutMsg timeout) e ∧
      timeout < e ∧
      natChars timeout <:+: timeoutMsg timeout ∧
      run_marker_for_chunk ok timeout poll fuel cli chunk outDir flags proc fs cands =
        (Except.error (timeoutMsg timeout), false) := by
  have hwait : ∃ e2, waitGo ok timeout poll fuel 1 0 =
      GateResult.timeoutErr (timeoutMsg timeout) e2 ∧ 0 ≤ e2 ∧ timeout < e2 := by
    apply waitGo_never_ready ok timeout poll hok hp fuel 1 0
    simpa using hf
  obtain ⟨e2, heq, -, hgt⟩ := hwait
  have hw : wait_for_gpu_ready ok timeout poll fuel =
      GateResult.timeoutErr (timeoutMsg timeout) e2 := by
    rw [wait_for_gpu_ready, hok 0]
    simpa using heq
  refine ⟨e2, hw, hgt, ⟨chars "Timeout waiting for GPU to become available after ",
    ['s'], rfl⟩, ?_⟩
  rw [run_marker_for_chunk, hw]

/-- C7 witness: timeout 3, poll 2, never ready. -/
theorem c7_gate_timeout_fatal_witness :
    ((∀ k, (fun (_ : Nat) => false) k = false) ∧ 0 < 2 ∧ 3 / 2 + 2 ≤ 10) ∧
      ∃ e, wait_for_gpu_ready (fun (_ : Nat) => false) 3 2 10 =
          GateResult.timeoutErr (timeoutMsg 3) e ∧
        3 < e ∧
        natChars 3 <:+: timeoutMsg 3 ∧
        run_marker_for_chunk (fun (_ : Nat) => false) 3 2 10 (chars "mk") (chars "b.pdf")
            (chars "/out") [] ⟨0, [], []⟩ [] [] =
          (Except.error (timeoutMsg 3), false) :=
  ⟨⟨fun _ => rfl, by decide, by decide⟩,
    c7_gate_timeout_fatal (fun (_ : Nat) => false) 3 2 10 (chars "mk") (chars "b.pdf")
      (chars "/out") [] ⟨0, [], []⟩ [] [] (fun _ => rfl) (by decide) (by decide)⟩

theorem extractGo_eq_filterMap (bs : List (List Char)) :
    extractGo bs = bs.filterMap processBlock := by
  induction bs with
  | nil => rfl
  | cons b bs ih =>
    cases hb : processBlock b with
    | none => simp only [extractGo, hb, List.filterMap_cons_none hb, ih]
    | some f => simp only [extractGo, hb, List.filterMap_cons_some hb, ih]

/-- C8: for every existing, readable markdown document, extraction returns a
(possibly empty) list of records without raising; a block whose parse fails
contributes nothing and extraction continues with the remaining blocks of
the same document in order. -/
theorem c8_extraction_never_aborts (content : List Char) :
    ∃ dfs, extract_tables_as_dataframes (some content) = Except.ok dfs ∧
      dfs = (tablesMd content).filterMap processBlock ∧
      ∀ (bs1 bs2 : List (List Char)) (b : List Char),
        tablesMd content = bs1 ++ b :: bs2 → processBlock b = none →
          dfs = bs1.filterMap processBlock ++ bs2.filterMap processBlock := by
  refine ⟨extractGo (tablesMd content), rfl, extractGo_eq_filterMap _, ?_⟩
  intro bs1 bs2 b hsplit hnone
  rw [extractGo_eq_filterMap, hsplit, List.filterMap_append, List.filterMap_cons_none hnone]

theorem dropWhile_append_not_all (p : Char → Bool) (l₁ l₂ : List Char)
    (h : l₁.all p = false) :
    (l₁ ++ l₂).dropWhile p = l₁.dropWhile p ++ l₂ := by
  rw [List.dropWhile_append]
  have hne : (l₁.dropWhile p).isEmpty = false := by
    rw [List.isEmpty_eq_false]
    intro hnil
    rw [List.dropWhile_eq_nil_iff] at hnil
    rw [(List.all_eq_true).mpr hnil] at h
    cases h
  simp [hne]

theorem dropTrailWS_append_not_all (l₁ l₂ : List Char) (h : l₂.all isWS = false) :
    dropTrailWS (l₁ ++ l₂) = l₁ ++ dropTrailWS l₂ := by
  have hrev : l₂.reverse.all isWS = false := by
    rw [List.all_reverse]
    exact h
  unfold dropTrailWS
  rw [List.reverse_append, dropWhile_append_not_all isWS l₂.reverse l₁.reverse hrev,
    List.reverse_append, List.reverse_reverse]

theorem dropWhile_ne_nil_of_not_all (p : Char → Bool) (l : List Char)
    (h : l.all p = false) : l.dropWhile p ≠ [] := by
  intro hnil
  rw [List.dropWhile_eq_nil_iff] at hnil
  rw [(List.all_eq_true).mpr hnil] at h
  cases h

theorem dropTrailWS_ne_nil_of_not_all (l : List Char) (h : l.all isWS = false) :
    dropTrailWS l ≠ [] := by
  intro hnil
  unfold dropTrailWS at hnil
  rw [List.reverse_eq_nil_iff] at hnil
  exact dropWhile_ne_nil_of_not_all isWS l.reverse (by rw [List.all_reverse]; exact h) hnil

theorem mem_dropTrailWS (x : Char) (l : List Char) (h : x ∈ dropTrailWS l) : x ∈ l := by
  unfold dropTrailWS at h
  rw [List.mem_reverse] at h
  have h2 := (List.dropWhile_sublist isWS).subset h
  rw [List.mem_reverse] at h2
  exact h2

theorem mem_stripChars (x : Char) (l : List Char) (h : x ∈ stripChars l) : x ∈ l := by
  unfold stripChars at h
  exact (List.dropWhile_sublist isWS).subset (mem_dropTrailWS x _ h)

theorem splitKeep_cons_ne (c : Char) (cs : List Char) (hc : ¬ c = '\n') :
    splitKeep (c :: cs) =
      match splitKeep cs with
      | [] => [[c]]
      | l :: ls => (c :: l) :: ls := by
  simp [splitKeep, hc]

theorem splitKeep_append_nl : ∀ (a t : List Char), '\n' ∉ a →
    splitKeep (a ++ '\n' :: t) = (a ++ ['\n']) :: splitKeep t := by
  intro a
  induction a with
  | nil => intro t ha; simp [splitKeep]
  | cons c a' ih =>
    intro t ha
    have hc : ¬ c = '\n' := fun hc => ha (hc ▸ List.mem_cons_self c a')
    have ha' : '\n' ∉ a' := fun hm => ha (List.mem_cons_of_mem _ hm)
    rw [List.cons_append, splitKeep_cons_ne c _ hc, ih t ha']
    rfl

theorem splitKeep_of_no_nl : ∀ (l : List Char), '\n' ∉ l → l ≠ [] →
    splitKeep l = [l] := by
  intro l
  induction l with
  | nil => intro _ hne; cases hne rfl
  | cons c t ih =>
    intro h _
    have hc : ¬ c = '\n' := fun hc => h (hc ▸ List.mem_cons_self c t)
    have ht : '\n' ∉ t := fun hm => h (List.mem_cons_of_mem _ hm)
    cases t with
    | nil => simp [splitKeep, hc]
    | cons d t' =>
      rw [splitKeep_cons_ne c _ hc, ih ht (by intro hx; cases hx)]

theorem takeWhile_ne_nl_of_no_nl (a : List Char) (ha : '\n' ∉ a) :
    a.takeWhile (· ≠ '\n') = a :=
  List.takeWhile_eq_self_iff.mpr (fun x hx => by
    simp only [ne_eq, decide_eq_true_eq]
    intro hxn
    exact ha (hxn ▸ hx))

theorem splitNl_append_nl (a t : List Char) (ha : '\n' ∉ a) :
    splitNl (a ++ '\n' :: t) = a :: splitNl t := by
  unfold splitNl
  rw [splitKeep_append_nl a t ha, List.map_cons]
  congr 1
  rw [List.takeWhile_append_of_pos (p := (· ≠ '\n')) ?_]
  · simp [takeWhile_ne_nl_of_no_nl]
  · intro x hx
    simp only [ne_eq, decide_eq_true_eq]
    intro hxn
    exact ha (hxn ▸ hx)

theorem splitNl_of_no_nl (l : List Char) (h : '\n' ∉ l) (hne : l ≠ []) :
    splitNl l = [l] := by
  unfold splitNl
  rw [splitKeep_of_no_nl l h hne, List.map_cons, List.map_nil,
    takeWhile_ne_nl_of_no_nl l h]

theorem remainingLines_no_nl (b l : List Char) (h : l ∈ remainingLines b) :
    '\n' ∉ l := by
  intro hnl
  unfold remainingLines splitNl at h
  obtain ⟨l', hl', hmap⟩ := List.mem_map.mp (List.mem_of_mem_filter h)
  rw [← hmap] at hnl
  have := List.mem_takeWhile_imp hnl
  simp at this

theorem joinNl_single (x : List Char) : joinNl [x] = x := by
  simp [joinNl, List.intercalate, List.intersperse]

theorem joinNl_cons_cons (x y : List Char) (ls : List (List Char)) :
    joinNl (x :: y :: ls) = x ++ '\n' :: joinNl (y :: ls) := by
  simp [joinNl, List.intercalate, List.intersperse]

/-- C10: a table block whose separator-stripped content is exactly one line
always uses that line as the header row — the second-row promotion needs at
least two remaining lines — and the parse of such a block, when it
succeeds, yields a record with zero data rows. -/
theorem c10_single_line_block (b : List Char)
    (h : (remainingLines b).length = 1) :
    headerIdx b = 0 ∧ ∀ f, processBlock b = some f → f.rows = [] := by
  obtain ⟨l0, hl0⟩ := List.length_eq_one.mp h
  have hidx : headerIdx b = 0 := by
    unfold headerIdx
    rw [if_neg]
    rintro ⟨-, hlt⟩
    rw [h] at hlt
    exact lt_irrefl 1 hlt
  refine ⟨hidx, ?_⟩
  intro f hf
  unfold processBlock at hf
  rw [hl0, hidx] at hf
  simp only [List.isEmpty_cons, Bool.false_eq_true, if_false] at hf
  rw [joinNl_single] at hf
  by_cases hc : stripChars l0 = []
  · rw [hc] at hf
    simp [pdReadCsvModel, splitNl, splitKeep] at hf
  · have hnl : '\n' ∉ l0 :=
      remainingLines_no_nl b l0 (by rw [hl0]; exact List.mem_cons_self l0 [])
    have hnl' : '\n' ∉ stripChars l0 := fun hm => hnl (mem_stripChars _ _ hm)
    have hsplit := splitNl_of_no_nl _ hnl' hc
    rw [pdReadCsvModel, hsplit] at hf
    have hfilter : [stripChars l0].filter (fun l => l ≠ []) = [stripChars l0] := by
      simp [hc]
    rw [hfilter] at hf
    simp only [List.map_cons, List.map_nil, List.drop_zero, List.all_nil,
      if_true] at hf
    have hfeq := Option.some.inj hf
    rw [← hfeq]
    simp [stripFrame, dropAllNaCols]

/-- C10 witness: the block `"| | |\n"` has a single remaining line of three
empty cells; it becomes the header and the record has no data rows. -/
theorem c10_single_line_block_witness :
    (remainingLines (chars "| | |\n")).length = 1 ∧
      (headerIdx (chars "| | |\n") = 0 ∧
        ∀ f, processBlock (chars "| | |\n") = some f → f.rows = []) :=
  ⟨by decide, c10_single_line_block (chars "| | |\n") (by decide)⟩

theorem enum_filter_map_snd_sublist (l : List (List Char))
    (p : Nat × List Char → Bool) :
    (((l.enum).filter p).map Prod.snd).Sublist l := by
  have h1 : ((l.enum).filter p).Sublist l.enum := List.filter_sublist _
  have h2 := h1.map Prod.snd
  rw [List.enum_map_snd] at h2
  exact h2

theorem ne_nil_of_all_false {p : Char → Bool} {l : List Char}
    (h : l.all p = false) : l ≠ [] := by
  intro hnil
  rw [hnil] at h
  simp at h

theorem joinNl_head_not_all (x : List Char) (xs : List (List Char))
    (h : x.all isWS = false) : (joinNl (x :: xs)).all isWS = false := by
  cases xs with
  | nil => rw [joinNl_single]; exact h
  | cons y ys =>
    rw [joinNl_cons_cons, List.all_append, h]
    rfl

theorem stripChars_head_line (l0 J : List Char)
    (h0 : l0.all isWS = false) (hJ : J.all isWS = false) :
    stripChars (l0 ++ '\n' :: J) = l0.dropWhile isWS ++ '\n' :: dropTrailWS J := by
  unfold stripChars
  rw [dropWhile_append_not_all isWS l0 ('\n' :: J) h0]
  have hassoc : l0.dropWhile isWS ++ '\n' :: J =
      (l0.dropWhile isWS ++ ['\n']) ++ J := by
    simp
  rw [hassoc, dropTrailWS_append_not_all _ J hJ]
  simp

theorem dropTrailWS_join_cons (l1 r0 : List Char) (rest' : List (List Char))
    (hJ : (joinNl (r0 :: rest')).all isWS = false) :
    dropTrailWS (joinNl (l1 :: r0 :: rest')) =
      l1 ++ '\n' :: dropTrailWS (joinNl (r0 :: rest')) := by
  rw [joinNl_cons_cons]
  have hassoc : l1 ++ '\n' :: joinNl (r0 :: rest') =
      (l1 ++ ['\n']) ++ joinNl (r0 :: rest') := by
    simp
  rw [hassoc, dropTrailWS_append_not_all _ _ hJ]
  simp

/-- C9 counterexample: the markdown text `"|a|\n\n|x|y|\n|1|2|\n"` is one
table block (the regex absorbs the blank line); its remaining lines after
separator removal are `["|a|", "", "|x|y|", "|1|2|"]` and the half-empty
condition holds on the first, so second-row promotion fires — yet the
parsed record's header is `["x", "y"]`, taken from the third remaining
line, because the blank second line is removed by the join/strip and
blank-line filtering before the parse; the second remaining line is empty
and would give the single empty cell.  The claim that the second remaining
line is then used as the header row is false. -/
theorem c9_counterexample :
    tablesMd (chars "|a|\n\n|x|y|\n|1|2|\n") = [chars "|a|\n\n|x|y|\n|1|2|\n"] ∧
      remainingLines (chars "|a|\n\n|x|y|\n|1|2|\n")
        = [chars "|a|", [], chars "|x|y|", chars "|1|2|"] ∧
      2 ≤ (remainingLines (chars "|a|\n\n|x|y|\n|1|2|\n")).length ∧
      2 * (firstRowCells (chars "|a|\n\n|x|y|\n|1|2|\n")).count []
        ≥ (firstRowCells (chars "|a|\n\n|x|y|\n|1|2|\n")).length ∧
      headerIdx (chars "|a|\n\n|x|y|\n|1|2|\n") = 1 ∧
      (processBlock (chars "|a|\n\n|x|y|\n|1|2|\n")).map Frame.header
        = some [chars "x", chars "y"] ∧
      ((splitOnChar '|'
          ((remainingLines (chars "|a|\n\n|x|y|\n|1|2|\n")).getD 1 [])).map
        stripChars) = [[]] ∧
      (some [chars "x", chars "y"] : Option (List (List Char))) ≠ some [[]] :=
  ⟨by decide, by decide, by decide, by decide, by decide, by decide, by decide,
    by decide⟩

/-- C9 amended: for a table block with at least two remaining lines after
separator-line removal, none of which is empty or whitespace-only, if at
least half of the trimmed cells of the first remaining line are empty then
the second remaining line is used as the header row: the header index
passed to the parse is 1, and the parsed record's header consists of
trimmed cells of the second remaining line (those surviving the
empty-column drop).  In general the header is instead the second row
surviving the join/strip and blank-line filtering of the cleaned block. -/
theorem c9_header_promotion (b : List Char)
    (hlen : 2 ≤ (remainingLines b).length)
    (hws : ∀ l ∈ remainingLines b, l.all isWS = false)
    (hcond : 2 * (firstRowCells b).count [] ≥ (firstRowCells b).length) :
    headerIdx b = 1 ∧
      ∀ f, processBlock b = some f →
        f.header.Sublist
          ((splitOnChar '|' ((remainingLines b).getD 1 [])).map stripChars) := by
  have hidx : headerIdx b = 1 := by
    have hc : 2 * (firstRowCells b).count [] ≥ (firstRowCells b).length ∧
        1 < (remainingLines b).length := ⟨hcond, by omega⟩
    simp only [headerIdx]
    rw [if_pos hc]
  refine ⟨hidx, ?_⟩
  intro f hf
  cases hL : remainingLines b with
  | nil => rw [hL] at hlen; simp at hlen
  | cons l0 tl =>
    cases tl with
    | nil => rw [hL] at hlen; simp at hlen
    | cons l1 rest =>
      simp only [List.getD_cons_succ, List.getD_cons_zero]
      have hm0 : l0 ∈ remainingLines b := by
        rw [hL]; exact List.mem_cons_self _ _
      have hm1 : l1 ∈ remainingLines b := by
        rw [hL]; exact List.mem_cons_of_mem _ (List.mem_cons_self _ _)
      have hws0 := hws l0 hm0
      have hws1 := hws l1 hm1
      have hnl0 := remainingLines_no_nl b l0 hm0
      have hnl1 := remainingLines_no_nl b l1 hm1
      have hJ : (joinNl (l1 :: rest)).all isWS = false :=
        joinNl_head_not_all l1 rest hws1
      have hd0ne : l0.dropWhile isWS ≠ [] :=
        dropWhile_ne_nil_of_not_all isWS l0 hws0
      have hd0nl : '\n' ∉ l0.dropWhile isWS :=
        fun hm => hnl0 ((List.dropWhile_sublist isWS).subset hm)
      have hclean : stripChars (joinNl (l0 :: l1 :: rest)) =
          l0.dropWhile isWS ++ '\n' :: dropTrailWS (joinNl (l1 :: rest)) := by
        rw [joinNl_cons_cons]
        exact stripChars_head_line l0 (joinNl (l1 :: rest)) hws0 hJ
      unfold processBlock at hf
      rw [hL, hidx] at hf
      simp only [List.isEmpty_cons, Bool.false_eq_true, if_false] at hf
      rw [hclean] at hf
      cases rest with
      | nil =>
        have hl1tne : dropTrailWS l1 ≠ [] :=
          dropTrailWS_ne_nil_of_not_all l1 hws1
        have hl1tnl : '\n' ∉ dropTrailWS l1 :=
          fun hm => hnl1 (mem_dropTrailWS _ _ hm)
        have hsn : splitNl (l0.dropWhile isWS ++ '\n' ::
            dropTrailWS (joinNl [l1])) =
            [l0.dropWhile isWS, dropTrailWS l1] := by
          rw [joinNl_single, splitNl_append_nl _ _ hd0nl,
            splitNl_of_no_nl _ hl1tnl hl1tne]
        rw [pdReadCsvModel, hsn] at hf
        have hfil : ([l0.dropWhile isWS, dropTrailWS l1].filter
            (fun l => l ≠ [])) = [l0.dropWhile isWS, dropTrailWS l1] := by
          simp [hd0ne, hl1tne]
        rw [hfil] at hf
        simp only [List.map_cons, List.map_nil, List.drop_succ_cons,
          List.drop_zero, List.all_nil, if_true] at hf
        have hfeq := Option.some.inj hf
        rw [← hfeq]
        have hhd : (stripFrame (dropAllNaCols
            ⟨splitOnChar '|' (dropTrailWS l1), []⟩)).header = [] := by
          simp [stripFrame, dropAllNaCols]
        rw [hhd]
        exact List.nil_sublist _
      | cons r0 rest' =>
        have hmr : r0 ∈ remainingLines b := by
          rw [hL]
          exact List.mem_cons_of_mem _
            (List.mem_cons_of_mem _ (List.mem_cons_self _ _))
        have hwsr := hws r0 hmr
        have hJ' : (joinNl (r0 :: rest')).all isWS = false :=
          joinNl_head_not_all r0 rest' hwsr
        have hdt : dropTrailWS (joinNl (l1 :: r0 :: rest')) =
            l1 ++ '\n' :: dropTrailWS (joinNl (r0 :: rest')) :=
          dropTrailWS_join_cons l1 r0 rest' hJ'
        have hl1ne : l1 ≠ [] := ne_nil_of_all_false hws1
        have hsn : splitNl (l0.dropWhile isWS ++ '\n' ::
            dropTrailWS (joinNl (l1 :: r0 :: rest'))) =
            l0.dropWhile isWS :: l1 ::
              splitNl (dropTrailWS (joinNl (r0 :: rest'))) := by
          rw [hdt, splitNl_append_nl _ _ hd0nl, splitNl_append_nl _ _ hnl1]
        rw [pdReadCsvModel, hsn] at hf
        have hfil : ((l0.dropWhile isWS :: l1 ::
            splitNl (dropTrailWS (joinNl (r0 :: rest')))).filter
              (fun l => l ≠ [])) =
            l0.dropWhile isWS :: l1 ::
              ((splitNl (dropTrailWS (joinNl (r0 :: rest')))).filter
                (fun l => l ≠ [])) := by
          simp [hd0ne, hl1ne]
        rw [hfil] at hf
        simp only [List.map_cons, List.drop_succ_cons, List.drop_zero] at hf
        by_cases hall : (((splitNl (dropTrailWS (joinNl (r0 :: rest')))).filter
              (fun l => l ≠ [])).map (splitOnChar '|')).all
            (fun r => r.length ≤ (splitOnChar '|' l1).length)
        · rw [if_pos hall] at hf
          have hfeq := Option.some.inj hf
          rw [← hfeq]
          simp only [stripFrame, dropAllNaCols]
          exact (enum_filter_map_snd_sublist (splitOnChar '|' l1) _).map stripChars
        · rw [if_neg hall] at hf
          cases hf

/-- C9 witness: the block `"| | | |\n|a|b|c|\n|1|2|3|\n"`: the first
remaining line has five trimmed cells, all empty, so the second remaining
line `"|a|b|c|"` provides the header. -/
theorem c9_header_promotion_witness :
    (2 ≤ (remainingLines (chars "| | | |\n|a|b|c|\n|1|2|3|\n")).length ∧
      (∀ l ∈ remainingLines (chars "| | | |\n|a|b|c|\n|1|2|3|\n"),
        l.all isWS = false) ∧
      2 * (firstRowCells (chars "| | | |\n|a|b|c|\n|1|2|3|\n")).count []
        ≥ (firstRowCells (chars "| | | |\n|a|b|c|\n|1|2|3|\n")).length) ∧
    (headerIdx (chars "| | | |\n|a|b|c|\n|1|2|3|\n") = 1 ∧
      ∀ f, processBlock (chars "| | | |\n|a|b|c|\n|1|2|3|\n") = some f →
        f.header.Sublist
          ((splitOnChar '|'
            ((remainingLines (chars "| | | |\n|a|b|c|\n|1|2|3|\n")).getD 1
              [])).map stripChars)) :=
  ⟨⟨by decide, by decide, by decide⟩,
    c9_header_promotion (chars "| | | |\n|a|b|c|\n|1|2|3|\n") (by decide)
      (by decide) (by decide)⟩

/-! ## C3: the regex block scanner versus the spec's wording -/

theorem lastIdxNl_none : ∀ (w : List Char), '\n' ∉ w → lastIdxNl w = none := by
  intro w
  induction w with
  | nil => intro _; rfl
  | cons c t ih =>
    intro h
    have hc : ¬ c = '\n' := fun hc => h (hc ▸ List.mem_cons_self c t)
    have ht : '\n' ∉ t := fun hm => h (List.mem_cons_of_mem _ hm)
    simp [lastIdxNl, ih ht, hc]

theorem lastIdxNl_append (w1 w2 : List Char) (h2 : '\n' ∉ w2) :
    lastIdxNl (w1 ++ '\n' :: w2) = some w1.length := by
  induction w1 with
  | nil =>
    rw [List.nil_append]
    unfold lastIdxNl
    rw [lastIdxNl_none w2 h2]
    rfl
  | cons c t ih =>
    rw [List.cons_append]
    unfold lastIdxNl
    rw [ih]
    rfl

theorem lastIdxNl_bound : ∀ (w : List Char) (i : Nat),
    lastIdxNl w = some i → i < w.length := by
  intro w
  induction w with
  | nil => intro i h; cases h
  | cons c t ih =>
    intro i h
    unfold lastIdxNl at h
    cases ht : lastIdxNl t with
    | some j =>
      rw [ht] at h
      have := ih j ht
      simp only [Option.some.injEq] at h
      simp only [List.length_cons]
      omega
    | none =>
      rw [ht] at h
      by_cases hc : c = '\n'
      · rw [if_pos hc] at h
        simp only [Option.some.injEq] at h
        simp [← h]
      · rw [if_neg hc] at h
        cases h

theorem matchSW_pos (cs : List Char) (k : Nat) (h : matchSW cs = some k) :
    1 ≤ k ∧ k ≤ cs.length := by
  unfold matchSW at h
  cases hl : lastIdxNl (cs.takeWhile isWS) with
  | none => rw [hl] at h; cases h
  | some i =>
    rw [hl] at h
    simp only [Option.map_some', Option.some.injEq] at h
    have hb := lastIdxNl_bound _ i hl
    have hlen : (cs.takeWhile isWS).length ≤ cs.length :=
      List.Sublist.length_le (List.takeWhile_sublist _)
    omega

theorem tryPipes_some (rest : List Char) :
    ∀ (ps : List Nat) (m : Nat), tryPipes rest ps = some m →
      ∃ p k, p ∈ ps ∧ matchSW (rest.drop (p + 1)) = some k ∧ m = p + 2 + k := by
  intro ps
  induction ps with
  | nil => intro m h; cases h
  | cons p ps ih =>
    intro m h
    unfold tryPipes at h
    cases hm : matchSW (rest.drop (p + 1)) with
    | some k =>
      rw [hm] at h
      simp only [Option.some.injEq] at h
      exact ⟨p, k, List.mem_cons_self _ _, hm, h.symm⟩
    | none =>
      rw [hm] at h
      obtain ⟨p', k', hmem, hsw, hval⟩ := ih m h
      exact ⟨p', k', List.mem_cons_of_mem _ hmem, hsw, hval⟩

theorem matchG_pos (cs : List Char) (n : Nat) (h : matchG cs = some n) :
    1 ≤ n ∧ n ≤ cs.length := by
  unfold matchG at h
  cases cs with
  | nil => cases h
  | cons c rest =>
    by_cases hc : c = '|'
    · subst hc
      obtain ⟨p, k, hmem, hsw, hval⟩ := tryPipes_some rest _ n h
      obtain ⟨hk1, hk2⟩ := matchSW_pos _ k hsw
      have hdlen : (rest.drop (p + 1)).length = rest.length - (p + 1) :=
        List.length_drop _ _
      simp only [List.length_cons]
      omega
    · exact absurd h (by cases c <;> simp_all [matchG])

theorem matchMore_le : ∀ (f : Nat) (cs : List Char), matchMore f cs ≤ cs.length := by
  intro f
  induction f with
  | zero => intro cs; exact Nat.zero_le _
  | succ f ih =>
    intro cs
    unfold matchMore
    cases hg : matchG cs with
    | none => exact Nat.zero_le _
    | some n =>
      obtain ⟨h1, h2⟩ := matchG_pos cs n hg
      have := ih (cs.drop n)
      rw [List.length_drop] at this
      show n + matchMore f (cs.drop n) ≤ cs.length
      omega

theorem matchPlusLen_pos (cs : List Char) (n : Nat)
    (h : matchPlusLen cs = some n) : 1 ≤ n ∧ n ≤ cs.length := by
  unfold matchPlusLen at h
  cases hg : matchG cs with
  | none => rw [hg] at h; cases h
  | some m =>
    rw [hg] at h
    simp only [Option.some.injEq] at h
    obtain ⟨h1, h2⟩ := matchG_pos cs m hg
    have := matchMore_le cs.length (cs.drop m)
    rw [List.length_drop] at this
    omega

theorem matchPlusLen_of_matchG_none (cs : List Char) (h : matchG cs = none) :
    matchPlusLen cs = none := by
  unfold matchPlusLen
  rw [h]

theorem scanAux_congr : ∀ (f g : Nat) (cs : List Char),
    cs.length ≤ f → cs.length ≤ g → scanAux f cs = scanAux g cs := by
  intro f
  induction f with
  | zero =>
    intro g cs hf _
    rw [List.length_eq_zero.mp (Nat.le_zero.mp hf)]
    cases g <;> rfl
  | succ f ih =>
    intro g cs hf hg
    cases cs with
    | nil => cases g <;> rfl
    | cons c cs' =>
      obtain ⟨g', rfl⟩ : ∃ g', g = g' + 1 := by
        cases g with
        | zero => simp at hg
        | succ g' => exact ⟨g', rfl⟩
      show scanAux (f + 1) (c :: cs') = scanAux (g' + 1) (c :: cs')
      unfold scanAux
      cases hp : matchPlusLen (c :: cs') with
      | some n =>
        obtain ⟨h1, h2⟩ := matchPlusLen_pos _ n hp
        have hlen : ((c :: cs').drop n).length ≤ f := by
          rw [List.length_drop]
          simp only [List.length_cons] at h2 ⊢
          simp only [List.length_cons] at hf
          omega
        have hlen' : ((c :: cs').drop n).length ≤ g' := by
          rw [List.length_drop]
          simp only [List.length_cons] at h2 ⊢
          simp only [List.length_cons] at hg
          omega
        show (c :: cs').take n :: scanAux f ((c :: cs').drop n) =
          (c :: cs').take n :: scanAux g' ((c :: cs').drop n)
        rw [ih g' _ hlen hlen']
      | none =>
        show scanAux f cs' = scanAux g' cs'
        apply ih g'
        · simp only [List.length_cons] at hf
          omega
        · simp only [List.length_cons] at hg
          omega

theorem matchG_ne_pipe (c : Char) (cs : List Char) (hc : c ≠ '|') :
    matchG (c :: cs) = none := by
  unfold matchG
  split
  · rename_i rest heq
    injection heq with h1 h2
    exact absurd h1 hc
  · rfl

theorem takeWhile_until_nl (r v : List Char) (hr : '\n' ∉ r) :
    (r ++ '\n' :: v).takeWhile (· ≠ '\n') = r := by
  rw [List.takeWhile_append_of_pos ?_]
  · simp [List.takeWhile_cons]
  · intro a ha
    simp only [ne_eq, decide_eq_true_eq]
    exact fun h => hr (h ▸ ha)

theorem pipeIdxs_lt : ∀ (l : List Char) (p : Nat), p ∈ pipeIdxs l →
    p < l.length := by
  intro l
  induction l with
  | nil =>
    intro p h
    simp [pipeIdxs] at h
  | cons c t ih =>
    intro p h
    simp only [pipeIdxs] at h
    by_cases hc : c = '|'
    · rw [if_pos hc] at h
      rcases List.mem_cons.mp h with h0 | hmem
      · rw [h0]
        simp
      · obtain ⟨q, hq, hqe⟩ := List.mem_map.mp hmem
        have := ih q hq
        simp only [List.length_cons]
        omega
    · rw [if_neg hc] at h
      obtain ⟨q, hq, hqe⟩ := List.mem_map.mp h
      have := ih q hq
      simp only [List.length_cons]
      omega

theorem strict_elim (b : List Char) (h : strictTableLine b = true) :
    ∃ r p ps, b = '|' :: r ∧ (pipeIdxs r).reverse = p :: ps ∧
      (r.drop (p + 1)).all isWS = true := by
  unfold strictTableLine at h
  split at h
  · rename_i r
    split at h
    · cases h
    · rename_i p ps hp
      exact ⟨r, p, ps, rfl, hp, h⟩
  · cases h

theorem matchSW_ws (u v : List Char) (hu : u.all isWS = true)
    (hv : '\n' ∉ v.takeWhile isWS) :
    matchSW (u ++ '\n' :: v) = some (u.length + 1) := by
  unfold matchSW
  have ht : (u ++ '\n' :: v).takeWhile isWS = u ++ '\n' :: v.takeWhile isWS := by
    rw [List.takeWhile_append_of_pos (fun a ha => (List.all_eq_true.mp hu) a ha),
      List.takeWhile_cons]
    simp [isWS]
  rw [ht, lastIdxNl_append u (v.takeWhile isWS) hv]
  rfl

theorem matchG_strict (b v : List Char) (hs : strictTableLine b = true)
    (hnl : '\n' ∉ b) (hv : '\n' ∉ v.takeWhile isWS) :
    matchG (b ++ '\n' :: v) = some (b.length + 1) := by
  obtain ⟨r, p, ps, rfl, hp, hall⟩ := strict_elim b hs
  have hnlr : '\n' ∉ r := fun hm => hnl (List.mem_cons_of_mem _ hm)
  have hpmem : p ∈ pipeIdxs r := by
    rw [← List.mem_reverse, hp]
    exact List.mem_cons_self _ _
  have hplt : p < r.length := pipeIdxs_lt r p hpmem
  rw [List.cons_append]
  show tryPipes (r ++ '\n' :: v)
      ((pipeIdxs ((r ++ '\n' :: v).takeWhile (· ≠ '\n'))).reverse) =
    some (('|' :: r).length + 1)
  rw [takeWhile_until_nl r v hnlr, hp]
  unfold tryPipes
  have hdrop : (r ++ '\n' :: v).drop (p + 1) = r.drop (p + 1) ++ '\n' :: v :=
    List.drop_append_of_le_length (by omega)
  rw [hdrop, matchSW_ws (r.drop (p + 1)) v hall hv]
  have hlen : (r.drop (p + 1)).length = r.length - (p + 1) := List.length_drop _ _
  show some (p + 2 + ((r.drop (p + 1)).length + 1)) = some (('|' :: r).length + 1)
  simp only [Option.some.injEq, List.length_cons]
  omega

theorem encode_cons (b : List Char) (L : List (List Char)) :
    encodeLines (b :: L) = b ++ '\n' :: encodeLines L := by
  simp [encodeLines]

theorem clean_no_pipe (b : List Char) (h : cleanLine b = true) : '|' ∉ b := by
  unfold cleanLine at h
  rw [Bool.and_eq_true] at h
  obtain ⟨h1, -⟩ := h
  rw [Bool.not_eq_true'] at h1
  intro hm
  rw [← List.elem_iff] at hm
  have hc : b.contains '|' = true := hm
  rw [hc] at h1
  cases h1

theorem clean_not_all_ws (b : List Char) (h : cleanLine b = true) :
    b.all isWS = false := by
  unfold cleanLine at h
  rw [Bool.and_eq_true] at h
  obtain ⟨-, h2⟩ := h
  rw [Bool.not_eq_true'] at h2
  exact h2

theorem takeWhile_append_not_all (p : Char → Bool) (l₁ l₂ : List Char)
    (h : l₁.all p = false) : (l₁ ++ l₂).takeWhile p = l₁.takeWhile p := by
  rw [List.takeWhile_append, if_neg]
  intro hlen
  have heq : l₁.takeWhile p = l₁ :=
    (List.takeWhile_sublist p).eq_of_length hlen
  have hall := List.takeWhile_eq_self_iff.mp heq
  rw [List.all_eq_true.mpr hall] at h
  cases h

theorem noNlWs_encode : ∀ (L : List (List Char)) (v : List Char),
    (∀ l ∈ L, '\n' ∉ l ∧ (strictTableLine l = true ∨ cleanLine l = true)) →
    '\n' ∉ v.takeWhile isWS → '\n' ∉ (encodeLines L ++ v).takeWhile isWS := by
  intro L v hL hv
  cases L with
  | nil => simpa [encodeLines] using hv
  | cons b L' =>
    obtain ⟨hnl, hbs⟩ := hL b (List.mem_cons_self _ _)
    rw [encode_cons]
    have hassoc : (b ++ '\n' :: encodeLines L') ++ v =
        b ++ '\n' :: (encodeLines L' ++ v) := by
      simp
    rw [hassoc]
    rcases hbs with hstrict | hclean
    · obtain ⟨r, p, ps, rfl, -, -⟩ := strict_elim b hstrict
      simp [List.takeWhile_cons, isWS]
    · rw [takeWhile_append_not_all isWS b _ (clean_not_all_ws b hclean)]
      intro hm
      exact hnl ((List.takeWhile_sublist _).subset hm)

theorem matchMore_run : ∀ (run : List (List Char)) (f : Nat) (v : List Char),
    (∀ l ∈ run, '\n' ∉ l ∧ strictTableLine l = true) →
    '\n' ∉ v.takeWhile isWS → matchG v = none →
    (encodeLines run ++ v).length ≤ f →
    matchMore f (encodeLines run ++ v) = (encodeLines run).length := by
  intro run
  induction run with
  | nil =>
    intro f v _ _ hG _
    show matchMore f v = 0
    cases f with
    | zero => rfl
    | succ f' =>
      unfold matchMore
      rw [hG]
  | cons b run' ih =>
    intro f v hgood hv hG hf
    obtain ⟨hnl, hstrict⟩ := hgood b (List.mem_cons_self _ _)
    have hgood' : ∀ l ∈ run', '\n' ∉ l ∧ strictTableLine l = true :=
      fun l hl => hgood l (List.mem_cons_of_mem _ hl)
    have hstream : encodeLines (b :: run') ++ v =
        b ++ '\n' :: (encodeLines run' ++ v) := by
      rw [encode_cons]
      simp
    have hcont : '\n' ∉ (encodeLines run' ++ v).takeWhile isWS :=
      noNlWs_encode run' v
        (fun l hl => ⟨(hgood' l hl).1, Or.inl (hgood' l hl).2⟩) hv
    have hmg : matchG (b ++ '\n' :: (encodeLines run' ++ v)) =
        some (b.length + 1) :=
      matchG_strict b _ hstrict hnl hcont
    have hlenstream : (encodeLines (b :: run') ++ v).length =
        b.length + 1 + (encodeLines run' ++ v).length := by
      rw [hstream]
      simp
      omega
    obtain ⟨f', rfl⟩ : ∃ f', f = f' + 1 := by
      cases f with
      | zero =>
        rw [hlenstream] at hf
        omega
      | succ f' => exact ⟨f', rfl⟩
    rw [hstream]
    unfold matchMore
    rw [hmg]
    have hdrop : (b ++ '\n' :: (encodeLines run' ++ v)).drop (b.length + 1) =
        encodeLines run' ++ v := by
      have hx : b ++ '\n' :: (encodeLines run' ++ v) =
          (b ++ ['\n']) ++ (encodeLines run' ++ v) := by
        simp
      rw [hx]
      exact List.drop_left' (by simp)
    show b.length + 1 +
        matchMore f' ((b ++ '\n' :: (encodeLines run' ++ v)).drop (b.length + 1)) =
      (encodeLines (b :: run')).length
    rw [hdrop, ih f' v hgood' hv hG (by rw [hlenstream] at hf; omega)]
    rw [encode_cons]
    simp
    omega

theorem matchPlusLen_run (b : List Char) (run' : List (List Char)) (v : List Char)
    (hgood : ∀ l ∈ b :: run', '\n' ∉ l ∧ strictTableLine l = true)
    (hv : '\n' ∉ v.takeWhile isWS) (hG : matchG v = none) :
    matchPlusLen (encodeLines (b :: run') ++ v) =
      some (encodeLines (b :: run')).length := by
  obtain ⟨hnl, hstrict⟩ := hgood b (List.mem_cons_self _ _)
  have hgood' : ∀ l ∈ run', '\n' ∉ l ∧ strictTableLine l = true :=
    fun l hl => hgood l (List.mem_cons_of_mem _ hl)
  have hcont : '\n' ∉ (encodeLines run' ++ v).takeWhile isWS :=
    noNlWs_encode run' v
      (fun l hl => ⟨(hgood' l hl).1, Or.inl (hgood' l hl).2⟩) hv
  have hstream : encodeLines (b :: run') ++ v =
      b ++ '\n' :: (encodeLines run' ++ v) := by
    rw [encode_cons]
    simp
  have hmg : matchG (b ++ '\n' :: (encodeLines run' ++ v)) =
      some (b.length + 1) :=
    matchG_strict b _ hstrict hnl hcont
  have hdrop : (b ++ '\n' :: (encodeLines run' ++ v)).drop (b.length + 1) =
      encodeLines run' ++ v := by
    have hx : b ++ '\n' :: (encodeLines run' ++ v) =
        (b ++ ['\n']) ++ (encodeLines run' ++ v) := by
      simp
    rw [hx]
    exact List.drop_left' (by simp)
  have hlenstream : (b ++ '\n' :: (encodeLines run' ++ v)).length =
      b.length + 1 + (encodeLines run' ++ v).length := by
    simp
    omega
  rw [hstream]
  unfold matchPlusLen
  rw [hmg]
  show some (b.length + 1 +
      matchMore (b ++ '\n' :: (encodeLines run' ++ v)).length
        ((b ++ '\n' :: (encodeLines run' ++ v)).drop (b.length + 1))) =
    some (encodeLines (b :: run')).length
  rw [hdrop, matchMore_run run' _ v hgood' hv hG (by rw [hlenstream]; omega)]
  rw [encode_cons]
  simp
  omega

theorem scanAux_none_step (f : Nat) (c : Char) (cs : List Char)
    (h : matchPlusLen (c :: cs) = none) :
    scanAux (f + 1) (c :: cs) = scanAux f cs := by
  conv_lhs => unfold scanAux
  rw [h]

theorem scanAux_some_step (f : Nat) (c : Char) (cs : List Char) (n : Nat)
    (h : matchPlusLen (c :: cs) = some n) :
    scanAux (f + 1) (c :: cs) =
      (c :: cs).take n :: scanAux f ((c :: cs).drop n) := by
  conv_lhs => unfold scanAux
  rw [h]

theorem scan_skip_clean : ∀ (c : List Char), '|' ∉ c → '\n' ∉ c →
    ∀ (v : List Char) (f : Nat), (c ++ '\n' :: v).length ≤ f →
    scanAux f (c ++ '\n' :: v) = scanAux v.length v := by
  intro c
  induction c with
  | nil =>
    intro _ _ v f hf
    simp only [List.nil_append, List.length_cons] at hf ⊢
    obtain ⟨f', rfl⟩ : ∃ f', f = f' + 1 := by
      cases f with
      | zero => omega
      | succ f' => exact ⟨f', rfl⟩
    rw [scanAux_none_step f' '\n' v
      (matchPlusLen_of_matchG_none _ (matchG_ne_pipe '\n' v (by decide)))]
    exact scanAux_congr f' v.length v (by omega) (Nat.le_refl _)
  | cons c0 c' ih =>
    intro hp hn v f hf
    have hc0 : c0 ≠ '|' := fun h => hp (h ▸ List.mem_cons_self _ _)
    have hp' : '|' ∉ c' := fun hm => hp (List.mem_cons_of_mem _ hm)
    have hn' : '\n' ∉ c' := fun hm => hn (List.mem_cons_of_mem _ hm)
    rw [List.cons_append]
    rw [List.cons_append] at hf
    simp only [List.length_cons, List.length_append] at hf
    obtain ⟨f', rfl⟩ : ∃ f', f = f' + 1 := by
      cases f with
      | zero => omega
      | succ f' => exact ⟨f', rfl⟩
    rw [scanAux_none_step f' c0 _
      (matchPlusLen_of_matchG_none _ (matchG_ne_pipe c0 _ hc0))]
    exact ih hp' hn' v f'
      (by simp only [List.length_append, List.length_cons]; omega)

theorem splitKeep_encode : ∀ (L : List (List Char)), (∀ l ∈ L, '\n' ∉ l) →
    splitKeep (encodeLines L) = L.map (· ++ ['\n']) := by
  intro L
  induction L with
  | nil => intro _; rfl
  | cons b L' ih =>
    intro h
    rw [encode_cons, splitKeep_append_nl b _ (h b (List.mem_cons_self _ _)),
      ih (fun l hl => h l (List.mem_cons_of_mem _ hl))]
    rfl

theorem dropTrailWS_append_all (x w : List Char) (hw : w.all isWS = true) :
    dropTrailWS (x ++ w) = dropTrailWS x := by
  unfold dropTrailWS
  rw [List.reverse_append, List.dropWhile_append_of_pos]
  intro a ha
  rw [List.mem_reverse] at ha
  exact List.all_eq_true.mp hw a ha

theorem dropWhile_head_false (p : List Char → Bool) :
    ∀ (l : List (List Char)) (x : List Char) (xs : List (List Char)),
      l.dropWhile p = x :: xs → p x = false := by
  intro l
  induction l with
  | nil =>
    intro x xs h
    cases h
  | cons a t ih =>
    intro x xs h
    rw [List.dropWhile_cons] at h
    by_cases hp : p a = true
    · rw [if_pos hp] at h
      exact ih x xs h
    · rw [if_neg hp] at h
      injection h with h1 h2
      rw [← h1]
      exact Bool.eq_false_iff.mpr hp

theorem pipeIdxs_split : ∀ (l : List Char) (p : Nat), p ∈ pipeIdxs l →
    ∃ u w, l = u ++ '|' :: w ∧ u.length = p := by
  intro l
  induction l with
  | nil =>
    intro p h
    simp [pipeIdxs] at h
  | cons c t ih =>
    intro p h
    simp only [pipeIdxs] at h
    by_cases hc : c = '|'
    · rw [if_pos hc] at h
      rcases List.mem_cons.mp h with h0 | hmem
      · exact ⟨[], t, by rw [hc, List.nil_append], by simp [h0]⟩
      · obtain ⟨q, hq, hqe⟩ := List.mem_map.mp hmem
        obtain ⟨u, w, hl, hu⟩ := ih q hq
        exact ⟨c :: u, w, by rw [hl]; simp, by simp [hu]; omega⟩
    · rw [if_neg hc] at h
      obtain ⟨q, hq, hqe⟩ := List.mem_map.mp h
      obtain ⟨u, w, hl, hu⟩ := ih q hq
      exact ⟨c :: u, w, by rw [hl]; simp, by simp [hu]; omega⟩

theorem groupJoin_cons₂ (l l' : List Char) (ls : List (List Char)) :
    groupJoin (l :: l' :: ls) =
      match specTableLine l, specTableLine l', groupJoin (l' :: ls) with
      | true, true, b :: bs => (l ++ b) :: bs
      | true, true, [] => [l]
      | true, false, bs => l :: bs
      | false, _, bs => bs := rfl

theorem spec_of_strict (b : List Char) (hs : strictTableLine b = true)
    (hnl : '\n' ∉ b) : specTableLine (b ++ ['\n']) = true := by
  obtain ⟨r, p, ps, hb, hp, hall⟩ := strict_elim b hs
  have hpmem : p ∈ pipeIdxs r := by
    rw [← List.mem_reverse, hp]
    exact List.mem_cons_self _ _
  obtain ⟨u, w, hr, hu⟩ := pipeIdxs_split r p hpmem
  have hwall : w.all isWS = true := by
    have hdrop : r.drop (p + 1) = w := by
      rw [hr]
      have hx : u ++ '|' :: w = (u ++ ['|']) ++ w := by simp
      rw [hx]
      exact List.drop_left' (by simp [hu])
    rw [← hdrop]
    exact hall
  simp only [specTableLine]
  have hbody : (b ++ ['\n']).takeWhile (· ≠ '\n') = b := by
    have := takeWhile_until_nl b [] hnl
    simpa using this
  rw [hbody]
  rw [Bool.and_eq_true]
  constructor
  · rw [hb]
    simp
  · have hsplit : b = (('|' :: u) ++ ['|']) ++ w := by
      rw [hb, hr]
      simp
    rw [hsplit, dropTrailWS_append_all _ w hwall,
      dropTrailWS_append_not_all _ ['|'] (by decide)]
    have h1 : dropTrailWS ['|'] = ['|'] := by decide
    rw [h1, List.getLast?_concat]
    simp

theorem spec_of_clean (b : List Char) (hc : cleanLine b = true)
    (hnl : '\n' ∉ b) : specTableLine (b ++ ['\n']) = false := by
  simp only [specTableLine]
  have hbody : (b ++ ['\n']).takeWhile (· ≠ '\n') = b := by
    have := takeWhile_until_nl b [] hnl
    simpa using this
  rw [hbody]
  cases hb : b with
  | nil =>
    rw [hb] at hc
    cases hc
  | cons c t =>
    have hcne : ¬ c = '|' := by
      intro h
      exact clean_no_pipe b hc (hb ▸ h ▸ List.mem_cons_self c t)
    simp [hcne]

theorem groupJoin_drop_false (x : List Char) (xs : List (List Char))
    (hx : specTableLine x = false) : groupJoin (x :: xs) = groupJoin xs := by
  cases xs with
  | nil => simp [groupJoin, hx]
  | cons y ys =>
    rw [groupJoin_cons₂, hx]

theorem groupJoin_run : ∀ (T R : List (List Char)), T ≠ [] →
    (∀ t ∈ T, specTableLine t = true) →
    (∀ r0 R2, R = r0 :: R2 → specTableLine r0 = false) →
    groupJoin (T ++ R) = T.flatten :: groupJoin R := by
  intro T
  induction T with
  | nil =>
    intro R h
    cases h rfl
  | cons t T' ih =>
    intro R _ hT hR
    have ht : specTableLine t = true := hT t (List.mem_cons_self _ _)
    cases T' with
    | nil =>
      cases R with
      | nil => simp [groupJoin, ht]
      | cons r0 R2 =>
        have hr0 : specTableLine r0 = false := hR r0 R2 rfl
        show groupJoin (t :: r0 :: R2) = [t].flatten :: groupJoin (r0 :: R2)
        rw [groupJoin_cons₂, ht, hr0]
        simp
    | cons t2 T'' =>
      have ht2 : specTableLine t2 = true := hT t2
        (List.mem_cons_of_mem _ (List.mem_cons_self _ _))
      have hind := ih R (by simp)
        (fun x hx => hT x (List.mem_cons_of_mem _ hx)) hR
      have hind' : groupJoin (t2 :: (T'' ++ R)) =
          (t2 :: T'').flatten :: groupJoin R := hind
      show groupJoin (t :: t2 :: (T'' ++ R)) =
        (t :: t2 :: T'').flatten :: groupJoin R
      rw [groupJoin_cons₂, ht, ht2, hind']
      simp

theorem scanAux_step_some (f : Nat) (cs : List Char) (n : Nat)
    (hne : cs ≠ []) (h : matchPlusLen cs = some n) (hf : cs.length ≤ f) :
    scanAux f cs = cs.take n :: scanAux (f - 1) (cs.drop n) := by
  obtain ⟨c, cs', rfl⟩ := List.exists_cons_of_ne_nil hne
  obtain ⟨f', rfl⟩ : ∃ f', f = f' + 1 := by
    cases f with
    | zero => simp at hf
    | succ f' => exact ⟨f', rfl⟩
  rw [scanAux_some_step f' c cs' n h]
  rfl

theorem noNlWs_encode0 (L : List (List Char))
    (h : ∀ l ∈ L, '\n' ∉ l ∧ (strictTableLine l = true ∨ cleanLine l = true)) :
    '\n' ∉ (encodeLines L).takeWhile isWS := by
  have hx := noNlWs_encode L [] h (by simp)
  simpa using hx

theorem scan_encode : ∀ (n : Nat) (L : List (List Char)), L.length ≤ n →
    (∀ l ∈ L, '\n' ∉ l ∧ (strictTableLine l = true ∨ cleanLine l = true)) →
    scanAux (encodeLines L).length (encodeLines L) =
      groupJoin (L.map (· ++ ['\n'])) := by
  intro n
  induction n with
  | zero =>
    intro L hL _
    rw [List.length_eq_zero.mp (Nat.le_zero.mp hL)]
    rfl
  | succ n ih =>
    intro L hL hgood
    cases L with
    | nil => rfl
    | cons b L' =>
      obtain ⟨hnl, hbs⟩ := hgood b (List.mem_cons_self _ _)
      have hgood' : ∀ l ∈ L',
          '\n' ∉ l ∧ (strictTableLine l = true ∨ cleanLine l = true) :=
        fun l hl => hgood l (List.mem_cons_of_mem _ hl)
      have hL' : L'.length ≤ n := by
        simp only [List.length_cons] at hL
        omega
      rcases hbs with hstrict | hclean
      · have hsplitL : L'.takeWhile (fun l => strictTableLine l) ++
            L'.dropWhile (fun l => strictTableLine l) = L' :=
          List.takeWhile_append_dropWhile _ _
        set run' := L'.takeWhile (fun l => strictTableLine l) with hrundef
        set rest := L'.dropWhile (fun l => strictTableLine l) with hrestdef
        have hrunmem : ∀ l ∈ run', l ∈ L' := fun l hl =>
          (List.takeWhile_sublist _).subset hl
        have hrestmem : ∀ l ∈ rest, l ∈ L' := fun l hl =>
          (List.dropWhile_sublist _).subset hl
        have hgoodrun : ∀ l ∈ b :: run', '\n' ∉ l ∧ strictTableLine l = true := by
          intro l hl
          rcases List.mem_cons.mp hl with h0 | hmem
          · exact h0 ▸ ⟨hnl, hstrict⟩
          · exact ⟨(hgood' l (hrunmem l hmem)).1, List.mem_takeWhile_imp hmem⟩
        have hrestgood : ∀ l ∈ rest,
            '\n' ∉ l ∧ (strictTableLine l = true ∨ cleanLine l = true) :=
          fun l hl => hgood' l (hrestmem l hl)
        have hrestclean : ∀ r0 R2, rest = r0 :: R2 → cleanLine r0 = true := by
          intro r0 R2 hr
          have hdw : L'.dropWhile (fun l => strictTableLine l) = r0 :: R2 := by
            rw [← hrestdef]
            exact hr
          have hff := dropWhile_head_false _ L' r0 R2 hdw
          rcases (hrestgood r0 (hr ▸ List.mem_cons_self r0 R2)).2 with hs | hc
          · rw [hs] at hff
            cases hff
          · exact hc
        have hGv : matchG (encodeLines rest) = none := by
          cases hrc : rest with
          | nil => rfl
          | cons r0 R2 =>
            have hcl := hrestclean r0 R2 hrc
            have hr0ne : r0 ≠ [] := ne_nil_of_all_false (clean_not_all_ws r0 hcl)
            obtain ⟨c0, r0', hr0⟩ := List.exists_cons_of_ne_nil hr0ne
            rw [encode_cons, hr0, List.cons_append]
            exact matchG_ne_pipe c0 _
              (fun hh => clean_no_pipe _ hcl (hh ▸ (hr0 ▸ List.mem_cons_self c0 r0')))
        have hvws : '\n' ∉ (encodeLines rest).takeWhile isWS :=
          noNlWs_encode0 rest hrestgood
        have hplus := matchPlusLen_run b run' (encodeLines rest) hgoodrun hvws hGv
        have hstream : encodeLines (b :: L') =
            encodeLines (b :: run') ++ encodeLines rest := by
          conv_lhs => rw [← hsplitL]
          rw [show b :: (run' ++ rest) = (b :: run') ++ rest from rfl]
          simp [encodeLines]
        have hAne : encodeLines (b :: run') ≠ [] := by
          rw [encode_cons]
          simp
        have hlen1 : 1 ≤ (encodeLines (b :: run')).length :=
          List.length_pos.mpr hAne
        rw [hstream]
        rw [scanAux_step_some _ _ _
          (fun hh => hAne (List.append_eq_nil.mp hh).1) hplus (Nat.le_refl _)]
        rw [List.take_left' rfl, List.drop_left' rfl]
        rw [scanAux_congr
            ((encodeLines (b :: run') ++ encodeLines rest).length - 1)
            (encodeLines rest).length (encodeLines rest)
            (by simp only [List.length_append]; omega) (Nat.le_refl _)]
        have hrestlen : rest.length ≤ n :=
          le_trans (List.dropWhile_sublist _).length_le hL'
        rw [ih rest hrestlen hrestgood]
        conv_rhs => rw [← hsplitL]
        rw [show b :: (run' ++ rest) = (b :: run') ++ rest from rfl,
          List.map_append]
        rw [groupJoin_run ((b :: run').map (· ++ ['\n']))
            (rest.map (· ++ ['\n'])) (by simp) ?tall ?rhead]
        · rfl
        case tall =>
          intro t ht
          obtain ⟨l, hl, rfl⟩ := List.mem_map.mp ht
          exact spec_of_strict l (hgoodrun l hl).2 (hgoodrun l hl).1
        case rhead =>
          intro r0 R2 hr
          cases hrc : rest with
          | nil =>
            rw [hrc] at hr
            cases hr
          | cons a rest2 =>
            rw [hrc] at hr
            simp only [List.map_cons] at hr
            injection hr with h1 h2
            rw [← h1]
            exact spec_of_clean a (hrestclean a rest2 hrc)
              (hrestgood a (hrc ▸ List.mem_cons_self a rest2)).1
      · rw [encode_cons]
        rw [scan_skip_clean b (clean_no_pipe b hclean) hnl (encodeLines L') _
          (Nat.le_refl _)]
        rw [ih L' hL' hgood']
        rw [List.map_cons,
          groupJoin_drop_false _ _ (spec_of_clean b hclean hnl)]

/-- C3 counterexample: three texts on which the regex blocks differ from the
spec's "maximal runs of lines that start and end with a pipe".  In
`"x|a|\n"` the code finds the block `"|a|\n"` starting at a pipe in
mid-line although no line starts with a pipe; in `"|a|\n \n|b|\n"` the code
merges the two runs across the whitespace-only line into one block; in
`"|a|"` (no trailing newline) the code finds no block at all while the
single line starts and ends with a pipe. -/
theorem c3_counterexample :
    tablesMd (chars "x|a|\n") = [chars "|a|\n"] ∧
      specBlocks (chars "x|a|\n") = [] ∧
      tablesMd (chars "|a|\n \n|b|\n") = [chars "|a|\n \n|b|\n"] ∧
      specBlocks (chars "|a|\n \n|b|\n") = [chars "|a|\n", chars "|b|\n"] ∧
      tablesMd (chars "|a|") = [] ∧
      specBlocks (chars "|a|") = [chars "|a|"] ∧
      tablesMd (chars "x|a|\n") ≠ specBlocks (chars "x|a|\n") ∧
      tablesMd (chars "|a|\n \n|b|\n") ≠ specBlocks (chars "|a|\n \n|b|\n") ∧
      tablesMd (chars "|a|") ≠ specBlocks (chars "|a|") :=
  ⟨by decide, by decide, by decide, by decide, by decide, by decide,
    by decide, by decide, by decide⟩

/-- C3 amended: on newline-terminated texts all of whose lines are either
strict table lines (begin with a pipe, contain a second pipe, and carry
only whitespace after their last pipe) or pipe-free non-blank lines, the
table blocks found by extraction are exactly the maximal runs of
consecutive lines that start and end with a pipe, as the spec words it.  In
general a block may also begin at a pipe in mid-line, absorb
whitespace-only lines following a table line, and requires its final line
to be newline-terminated. -/
theorem c3_blocks_on_wellformed_lines (L : List (List Char))
    (h : ∀ l ∈ L, '\n' ∉ l ∧ (strictTableLine l = true ∨ cleanLine l = true)) :
    tablesMd (encodeLines L) = specBlocks (encodeLines L) := by
  rw [tablesMd, specBlocks, splitKeep_encode L (fun l hl => (h l hl).1)]
  exact scan_encode L.length L (Nat.le_refl _) h

/-- C3 witness: a document of two table lines separated by a plain text
line. -/
theorem c3_blocks_on_wellformed_lines_witness :
    (∀ l ∈ [chars "|a|", chars "xy", chars "|b|c|"],
        '\n' ∉ l ∧ (strictTableLine l = true ∨ cleanLine l = true)) ∧
      tablesMd (encodeLines [chars "|a|", chars "xy", chars "|b|c|"]) =
        specBlocks (encodeLines [chars "|a|", chars "xy", chars "|b|c|"]) :=
  ⟨by decide, c3_blocks_on_wellformed_lines
    [chars "|a|", chars "xy", chars "|b|c|"] (by decide)⟩
